import Mathlib

set_option maxHeartbeats 1000000

/-!
Shallow embedding of `src/pipe.py` (class `Pipe`), the subscription-timeline
reconciliation and enrichment engine.

Modelling conventions:
* A subscription date is modelled as its calendar-month index
  (`year * 12 + (month - 1) : Nat`); the engine's date arithmetic
  (`pd.date_range(freq='MS')`, `Period('M')` subtraction) is exactly index
  arithmetic on this encoding for first-of-month dates.  The day-of-month
  component, which `deduplicate_subscriptions` does NOT normalise away, is
  modelled separately below (`DayDate`, `markDuplicatesDay`) where it matters.
* DataFrames are lists of structure values; `df.apply(axis=1)` is `List.map`;
  boolean-mask filtering is `List.filter`; `groupby` aggregates are computed
  per key.
* Subscriber ids are modelled as natural numbers: the engine only ever
  compares them for equality and sorts by them, and pandas sorts the id
  column by its dtype's total order, which `Nat` represents.  The spec's
  subscriber "A" is rendered as id `0`.
* Statuses are strings.  `reindex(fill_value=True)` writes the Python boolean
  `True` into the `status` column of synthetic rows; we model that placeholder
  as the string `"True"` (it is always overwritten by `updated_statuses`
  before any metric reads it, because synthetic rows are flagged).
-/

/-- A raw row of `Subscription.csv` after the `pd.to_datetime` conversion,
with `dates` at month granularity (first-of-month input dates). -/
structure SubRow where
  sub_id : Nat
  status : String
  dates : Nat
  deriving DecidableEq

/-- A subscription row carrying the `invalid_status` column added by
`deduplicate_subscriptions` (lines 34-42). -/
structure DedupRow where
  sub_id : Nat
  status : String
  dates : Nat
  invalid_status : Bool
  deriving DecidableEq

/-- Key predicate for `duplicated(subset=['dates','sub_id'])`. -/
def sameKey (s : Nat) (m : Nat) (r : SubRow) : Bool :=
  r.sub_id == s && r.dates == m

/-- Number of raw rows sharing the `(sub_id, dates)` key `(s, m)`. -/
def rawCount (subs : List SubRow) (s : Nat) (m : Nat) : Nat :=
  subs.countP (sameKey s m)

/-- Lines 34-42: `duplicated(subset=['dates','sub_id'], keep=False)` marks every
row of a colliding key, and the flag is concatenated as `invalid_status`. -/
def markDuplicates (subs : List SubRow) : List DedupRow :=
  subs.map (fun r =>
    ⟨r.sub_id, r.status, r.dates, decide (2 ≤ rawCount subs r.sub_id r.dates)⟩)

/-- The `(sub_id, dates)` key of a flagged row. -/
def dkey (r : DedupRow) : Nat × Nat := (r.sub_id, r.dates)

/-- Lines 44-45: `drop_duplicates(subset=['sub_id','dates'])` keeps the first
occurrence of each key; `seen` is the set of keys already emitted. -/
def dropDupsAux : List DedupRow → List (Nat × Nat) → List DedupRow
  | [], _ => []
  | r :: rs, seen =>
    if dkey r ∈ seen then dropDupsAux rs seen
    else r :: dropDupsAux rs (dkey r :: seen)

/-- `Pipe.deduplicate_subscriptions` (lines 25-45): flag all rows that share a
`(sub_id, dates)` key, then keep one row per key (first seen). -/
def deduplicate_subscriptions (subs : List SubRow) : List DedupRow :=
  dropDupsAux (markDuplicates subs) []

/-- The distinct subscriber ids, in order of first appearance
(`groupby('sub_id')` group keys; their relative order is irrelevant to every
per-key result because the output is re-sorted at the end). -/
def subsOf (rows : List DedupRow) : List Nat :=
  (rows.map (·.sub_id)).dedup

/-- The `dates` column of one subscriber's rows. -/
def subDates (rows : List DedupRow) (s : Nat) : List Nat :=
  (rows.filter (fun r => r.sub_id == s)).map (·.dates)

/-- `Pipe.fill_missing_months` (lines 47-75): per subscriber, build the monthly
grid from its min to its max date (`pd.date_range(freq='MS')`) and `reindex`
onto it; existing rows are carried, missing months get `fill_value=True` in
every remaining column (status placeholder `"True"`, `invalid_status = true`). -/
def fill_missing_months (rows : List DedupRow) : List DedupRow :=
  (subsOf rows).flatMap (fun s =>
    match (subDates rows s).min?, (subDates rows s).max? with
    | some lo, some hi =>
      (List.range (hi + 1 - lo)).map (fun i =>
        match rows.find? (fun r => r.sub_id == s && r.dates == lo + i) with
        | some r => r
        | none => ⟨s, "True", lo + i, true⟩)
    | _, _ => [])

/-- `sort_values(by='dates').iloc[-1]`: the row with the greatest date,
taking the later list element on ties (stable ascending sort, last row). -/
def latestBy (l : List DedupRow) : Option DedupRow :=
  l.foldl (fun acc q =>
    match acc with
    | none => some q
    | some p => if p.dates ≤ q.dates then some q else some p) none

/-- `sort_values(by='dates').iloc[0]`: the row with the least date,
taking the earlier list element on ties (stable ascending sort, first row). -/
def earliestBy (l : List DedupRow) : Option DedupRow :=
  l.foldl (fun acc q =>
    match acc with
    | none => some q
    | some p => if q.dates < p.dates then some q else some p) none

/-- `get_last_valid_status` (lines 86-127): for a flagged row, the status of the
latest valid strictly-earlier row of the same subscriber, else of the earliest
valid strictly-later row, else `'canceled'`; an unflagged row keeps its status.
`iloc[..., 2]` reads column 2 = `status` of the post-reindex column order. -/
def get_last_valid_status (rows : List DedupRow) (row : DedupRow) : String :=
  if row.invalid_status then
    let prevValid := rows.filter (fun q =>
      q.sub_id == row.sub_id && decide (q.dates < row.dates) && q.invalid_status == false)
    match latestBy prevValid with
    | some p => p.status
    | none =>
      let nextValid := rows.filter (fun q =>
        q.sub_id == row.sub_id && decide (row.dates < q.dates) && q.invalid_status == false)
      match earliestBy nextValid with
      | some p => p.status
      | none => "canceled"
  else row.status

/-- `Pipe.updated_statuses` (lines 77-132): `df.apply` computes the whole new
status column from the ORIGINAL frame before the single assignment at line 130,
so every lookup sees pre-resolution statuses. -/
def updated_statuses (rows : List DedupRow) : List DedupRow :=
  rows.map (fun r => { r with status := get_last_valid_status rows r })

/-- `get_months_since_first_subscription` (lines 141-168): calendar-month
difference to the minimum date among this subscriber's rows with resolved
status `'active'` and date ≤ the current date; `None` if no such row. -/
def get_months_since_first_subscription (rows : List DedupRow) (row : DedupRow) : Option Int :=
  match (((rows.filter (fun q =>
      q.sub_id == row.sub_id && q.status == "active" && decide (q.dates ≤ row.dates))).map
        (fun q => q.dates) : List Nat)).min? with
  | none => none
  | some f => some ((row.dates : Int) - (f : Int))

/-- `get_status_counts` (lines 178-201): `value_counts()` over the subscriber's
rows with date ≤ current date, read back with `.get('active', 0)` and
`.get('canceled', 0)`; returns `(active_months, canceled_months)`. -/
def get_status_counts (rows : List DedupRow) (row : DedupRow) : Nat × Nat :=
  let upto := rows.filter (fun q => q.sub_id == row.sub_id && decide (q.dates ≤ row.dates))
  ((upto.filter (fun q => q.status == "active")).length,
   (upto.filter (fun q => q.status == "canceled")).length)

/-- `get_months_since_status_change` (lines 211-236): calendar-month difference
to the maximum date among this subscriber's rows with date strictly earlier and
status different from the current row's; `None` if no such row. -/
def get_months_since_status_change (rows : List DedupRow) (row : DedupRow) : Option Int :=
  match (((rows.filter (fun q =>
      q.sub_id == row.sub_id && decide (q.dates < row.dates) && q.status != row.status)).map
        (fun q => q.dates) : List Nat)).max? with
  | none => none
  | some c => some ((row.dates : Int) - (c : Int))

/-- A booking timestamp: calendar-month index plus day-of-month (the
time-of-day part, discarded by `timestamp_to_month` before anything reads it,
is not modelled). -/
structure Timestamp where
  ym : Nat
  day : Nat
  deriving DecidableEq

/-- A raw row of `Bookings.csv`. -/
structure BookingRow where
  subscriber_id : Nat
  booking_date : Timestamp
  booking_status : String
  deriving DecidableEq

/-- `timestamp_to_month` (lines 248-265): drop the time, set the day to `01`;
at month-index granularity this keeps exactly the month component. -/
def timestamp_to_month (t : Timestamp) : Nat := t.ym

/-- A row of `bookings_per_month` after the rename at lines 285-286. -/
structure BookingCount where
  dates : Nat
  sub_id : Nat
  confirmed_bookings : Nat
  deriving DecidableEq

/-- `Pipe.get_monthly_bookings` (lines 241-286): filter to
`booking_status == 'Confirmed'`, group by `(month, subscriber_id)`, count
rows per group (one output row per key that has at least one member). -/
def get_monthly_bookings (books : List BookingRow) : List BookingCount :=
  let confirmed := books.filter (fun b => b.booking_status == "Confirmed")
  ((confirmed.map (fun b => (timestamp_to_month b.booking_date, b.subscriber_id))).dedup).map
    (fun k => ⟨k.1, k.2,
      confirmed.countP (fun b =>
        timestamp_to_month b.booking_date == k.1 && b.subscriber_id == k.2)⟩)

/-- A row of the final output frame: `save_to_csv` drops `invalid_status`
(line 303), so the flag is structurally absent here. -/
structure OutputRow where
  sub_id : Nat
  status : String
  dates : Nat
  months_since_first_subscription : Option Int
  active_months : Nat
  canceled_months : Nat
  months_since_status_change : Option Int
  confirmed_bookings : Nat
  deriving DecidableEq

/-- One enriched row: the four metric columns (lines 170-239) plus the left
join with `bookings_per_month` on `(sub_id, dates)` with `fillna(0)`
(lines 294-300). -/
def enrichRow (rows : List DedupRow) (bpm : List BookingCount) (r : DedupRow) : OutputRow :=
  { sub_id := r.sub_id
    status := r.status
    dates := r.dates
    months_since_first_subscription := get_months_since_first_subscription rows r
    active_months := (get_status_counts rows r).1
    canceled_months := (get_status_counts rows r).2
    months_since_status_change := get_months_since_status_change rows r
    confirmed_bookings :=
      match bpm.find? (fun b => b.sub_id == r.sub_id && b.dates == r.dates) with
      | some b => b.confirmed_bookings
      | none => 0 }

/-- `sort_values(by=['sub_id','dates'])` comparison, as a total boolean order
on output rows (ascending subscriber id, then ascending date). -/
def keyLE (a b : OutputRow) : Bool :=
  if a.sub_id < b.sub_id then true
  else if b.sub_id < a.sub_id then false
  else a.dates ≤ b.dates

/-- Insert a row into a `keyLE`-sorted list. -/
def insertSorted (r : OutputRow) : List OutputRow → List OutputRow
  | [] => [r]
  | q :: qs => if keyLE r q then r :: q :: qs else q :: insertSorted r qs

/-- Sort by `(sub_id, dates)` ascending (the keys are unique at this point, so
any comparison sort produces this list). -/
def sortOutput (l : List OutputRow) : List OutputRow :=
  l.foldr insertSorted []

/-- `Pipe.save_to_csv` (lines 288-306): join with the monthly bookings, zero-fill
missing matches, drop `invalid_status`, sort by `(sub_id, dates)`. -/
def save_to_csv (rows : List DedupRow) (bpm : List BookingCount) : List OutputRow :=
  sortOutput (rows.map (enrichRow rows bpm))

/-- `main` (lines 309-326): the full processing chain, from raw subscription and
booking rows to the output rows written to `DE_challenge_results.csv`. -/
def mainPipe (subs : List SubRow) (books : List BookingRow) : List OutputRow :=
  save_to_csv
    (updated_statuses (fill_missing_months (deduplicate_subscriptions subs)))
    (get_monthly_bookings books)

/-- Month index of January 2021. -/
def jan2021 : Nat := 2021 * 12

/-- Month index of February 2021. -/
def feb2021 : Nat := 2021 * 12 + 1

/-- Month index of March 2021. -/
def mar2021 : Nat := 2021 * 12 + 2

/-!
## Day-granularity model of the Deduplicator's date handling

`deduplicate_subscriptions` converts the `dates` column with `pd.to_datetime`
(line 31) and nothing else: the parsed date keeps its day-of-month, and the
duplicate key is the exact parsed date.  This model keeps the day component to
settle what happens to same-month, different-day rows.
-/

/-- A parsed date at day granularity: calendar-month index plus day-of-month. -/
structure DayDate where
  ym : Nat
  day : Nat
  deriving DecidableEq

/-- A raw subscription row whose date keeps its day-of-month. -/
structure DaySubRow where
  sub_id : String
  status : String
  dates : DayDate
  deriving DecidableEq

/-- Line 31: `pd.to_datetime` parses the date string; it does not truncate,
so the parsed value keeps its month and day. -/
def to_datetime (d : DayDate) : DayDate := d

/-- Number of rows sharing the exact `(sub_id, dates)` key at day granularity. -/
def dayRawCount (subs : List DaySubRow) (s : String) (d : DayDate) : Nat :=
  subs.countP (fun r => r.sub_id == s && r.dates == d)

/-- Lines 30-42 at day granularity: convert the dates, then flag every row that
shares its exact `(dates, sub_id)` key with another row
(`duplicated(subset=['dates','sub_id'], keep=False)`). -/
def markDuplicatesDay (subs : List DaySubRow) : List (DaySubRow × Bool) :=
  let converted := subs.map (fun r => { r with dates := to_datetime r.dates })
  converted.map (fun r => (r, decide (2 ≤ dayRawCount converted r.sub_id r.dates)))

/-!
## Derived definitions used by the verification
-/

/-- Pairwise-distinct `(sub_id, dates)` keys. -/
def keyNodup (l : List DedupRow) : Prop :=
  l.Pairwise (fun a b => dkey a ≠ dkey b)

/-- The per-subscriber block that the reindex of `fill_missing_months`
contributes for subscriber `s` (the same expression as the flatMap body). -/
def fillBlock (rows : List DedupRow) (s : Nat) : List DedupRow :=
  match (subDates rows s).min?, (subDates rows s).max? with
  | some lo, some hi =>
    (List.range (hi + 1 - lo)).map (fun i =>
      match rows.find? (fun r => r.sub_id == s && r.dates == lo + i) with
      | some r => r
      | none => ⟨s, "True", lo + i, true⟩)
  | _, _ => []

/-- The status of the unique valid raw row at key `(s, m)`: defined exactly
when `(s, m)` occurs once in the raw input. -/
def validStatus (subs : List SubRow) (s m : Nat) : Option String :=
  if rawCount subs s m = 1 then (subs.find? (sameKey s m)).map (·.status) else none

/-- The normalized timeline: deduplicate, then fill missing months. -/
def normalizedTimeline (subs : List SubRow) : List DedupRow :=
  fill_missing_months (deduplicate_subscriptions subs)

/-- The resolved timeline: statuses after `updated_statuses`. -/
def resolvedTimeline (subs : List SubRow) : List DedupRow :=
  updated_statuses (normalizedTimeline subs)

/-- The resolved status at a `(sub, month)` key (of the unique row with that
key, if any). -/
def statusAt (rows : List DedupRow) (s m : Nat) : Option String :=
  (rows.find? (fun r => r.sub_id == s && r.dates == m)).map (fun r => r.status)

/-- The `(sub_id, dates)` key of an output row. -/
def okey (o : OutputRow) : Nat × Nat := (o.sub_id, o.dates)

/-- The raw-input projection of an output row: the three columns a second
engine run would consume. -/
def toRaw (o : OutputRow) : SubRow := ⟨o.sub_id, o.status, o.dates⟩

/-- The `(sub_id, status, dates)` data of a timeline row (everything the
metric calculators read). -/
def trip (r : DedupRow) : Nat × String × Nat := (r.sub_id, r.status, r.dates)

/-- The dates observed for subscriber `s` in the raw input. -/
def subRawDates (subs : List SubRow) (s : Nat) : List Nat :=
  (subs.filter (fun r => r.sub_id == s)).map (fun r => r.dates)

/-- Strict `(sub_id, dates)` ordering of output rows. -/
def keyLT (a b : OutputRow) : Prop := keyLE a b = true ∧ okey a ≠ okey b

/-- Re-mark a timeline row as valid (what run 2's Deduplicator does to every
row of a duplicate-free input). -/
def reflag (r : DedupRow) : DedupRow := ⟨r.sub_id, r.status, r.dates, false⟩

instance : IsAntisymm OutputRow keyLT where
  antisymm a b h1 h2 := by
    refine absurd ?_ h1.2
    have ha := h1.1
    have hb := h2.1
    unfold keyLE at ha hb
    rw [okey, okey, Prod.mk.injEq]
    split at ha <;> split at hb <;> simp_all <;> omega

/-- The number of booking events of subscriber `s` with status `'Confirmed'`
whose timestamp falls in calendar month `m`. -/
def confirmedCount (books : List BookingRow) (s m : Nat) : Nat :=
  books.countP (fun b => b.subscriber_id == s &&
    b.booking_status == "Confirmed" && timestamp_to_month b.booking_date == m)

/-!
## General list lemmas
-/

/-- A list with exactly one element satisfying `p` has at most one member
satisfying `p`. -/
theorem eq_of_countP_eq_one {α : Type} {p : α → Bool} {l : List α}
    (h : l.countP p = 1) {x y : α} (hx : x ∈ l) (hpx : p x = true)
    (hy : y ∈ l) (hpy : p y = true) : x = y := by
  rw [List.countP_eq_length_filter, List.length_eq_one] at h
  obtain ⟨a, ha⟩ := h
  have hx' : x ∈ l.filter p := List.mem_filter.mpr ⟨hx, hpx⟩
  have hy' : y ∈ l.filter p := List.mem_filter.mpr ⟨hy, hpy⟩
  rw [ha, List.mem_singleton] at hx' hy'
  rw [hx', hy']

/-- `find?` returns the unique satisfying member. -/
theorem find?_eq_of_countP_eq_one {α : Type} {p : α → Bool} {l : List α}
    (h : l.countP p = 1) {x : α} (hx : x ∈ l) (hpx : p x = true) :
    l.find? p = some x := by
  have hsome : (l.find? p).isSome = true := List.find?_isSome.mpr ⟨x, hx, hpx⟩
  obtain ⟨a, ha⟩ := Option.isSome_iff_exists.mp hsome
  have := eq_of_countP_eq_one h (List.mem_of_find?_eq_some ha)
    (List.find?_some ha) hx hpx
  rw [ha, this]

/-- A positive `countP` is exactly the existence of a satisfying member. -/
theorem countP_pos_iff {α : Type} {p : α → Bool} {l : List α} :
    1 ≤ l.countP p ↔ ∃ x ∈ l, p x = true := by
  rw [List.countP_eq_length_filter]
  constructor
  · intro h
    match hf : l.filter p with
    | [] => rw [hf] at h; simp at h
    | a :: _ =>
      have ha : a ∈ l.filter p := by rw [hf]; exact List.mem_cons_self a _
      exact ⟨a, (List.mem_filter.mp ha).1, (List.mem_filter.mp ha).2⟩
  · rintro ⟨x, hx, hpx⟩
    have : x ∈ l.filter p := List.mem_filter.mpr ⟨hx, hpx⟩
    exact List.length_pos.mpr (List.ne_nil_of_mem this)

/-- Two lists with the same members have the same `min?`. -/
theorem min?_congr_mem {l₁ l₂ : List Nat} (h : ∀ x, x ∈ l₁ ↔ x ∈ l₂) :
    l₁.min? = l₂.min? := by
  match h₁ : l₁.min? with
  | some a =>
    obtain ⟨ha, hall⟩ := List.min?_eq_some_iff'.mp h₁
    exact (List.min?_eq_some_iff'.mpr ⟨(h a).mp ha, fun b hb => hall b ((h b).mpr hb)⟩).symm
  | none =>
    rw [List.min?_eq_none_iff] at h₁
    subst h₁
    match h₂ : l₂.min? with
    | none => rfl
    | some b =>
      obtain ⟨hb, -⟩ := List.min?_eq_some_iff'.mp h₂
      exact absurd ((h b).mpr hb) (List.not_mem_nil b)

/-- Two lists with the same members have the same `max?`. -/
theorem max?_congr_mem {l₁ l₂ : List Nat} (h : ∀ x, x ∈ l₁ ↔ x ∈ l₂) :
    l₁.max? = l₂.max? := by
  match h₁ : l₁.max? with
  | some a =>
    obtain ⟨ha, hall⟩ := List.max?_eq_some_iff'.mp h₁
    exact (List.max?_eq_some_iff'.mpr ⟨(h a).mp ha, fun b hb => hall b ((h b).mpr hb)⟩).symm
  | none =>
    rw [List.max?_eq_none_iff] at h₁
    subst h₁
    match h₂ : l₂.max? with
    | none => rfl
    | some b =>
      obtain ⟨hb, -⟩ := List.max?_eq_some_iff'.mp h₂
      exact absurd ((h b).mpr hb) (List.not_mem_nil b)

/-!
## Claims C2 and C8
-/

/-- C2 (counterexample): on raw rows ("A", 2021-01, active), ("A", 2021-03,
canceled) and the duplicate ("A", 2021-01, canceled), the pipeline does NOT
produce resolved statuses [active, active, canceled]: dedup flags BOTH copies
of the duplicated 2021-01 key, so 2021-01 has no valid row left and resolves
from its next valid neighbor (2021-03, canceled). -/
theorem c2_counterexample :
    ¬ ((mainPipe [⟨0, "active", jan2021⟩, ⟨0, "canceled", mar2021⟩,
          ⟨0, "canceled", jan2021⟩] []).map (fun o => o.status) =
        ["active", "active", "canceled"] ∧
      (mainPipe [⟨0, "active", jan2021⟩, ⟨0, "canceled", mar2021⟩,
          ⟨0, "canceled", jan2021⟩] []).map
            (fun o => o.months_since_first_subscription) =
        [some 0, some 1, some 2]) := by
  decide

/-- C2 (amended): on that raw input the pipeline produces the three-month
timeline 2021-01..2021-03 with every status resolved to "canceled" (the
flagged 2021-01 row resolves from the only valid row, 2021-03 canceled),
months_since_first_subscription all null (no active month exists),
active_months = [0,0,0], canceled_months = [1,2,3],
months_since_status_change all null, confirmed_bookings 0. -/
theorem c2_amended_end_to_end :
    mainPipe [⟨0, "active", jan2021⟩, ⟨0, "canceled", mar2021⟩,
        ⟨0, "canceled", jan2021⟩] [] =
      [⟨0, "canceled", jan2021, none, 0, 1, none, 0⟩,
       ⟨0, "canceled", feb2021, none, 0, 2, none, 0⟩,
       ⟨0, "canceled", mar2021, none, 0, 3, none, 0⟩] := by
  decide

/-- C8 (counterexample): two rows of subscriber "A" on different days of
January 2021 are NOT normalised to month precision and do NOT form a duplicate
group: `pd.to_datetime` keeps the day-of-month, the keys differ, and both rows
come out unflagged. -/
theorem c8_counterexample :
    markDuplicatesDay [⟨"A", "active", ⟨jan2021, 15⟩⟩,
        ⟨"A", "canceled", ⟨jan2021, 20⟩⟩] =
      [(⟨"A", "active", ⟨jan2021, 15⟩⟩, false),
       (⟨"A", "canceled", ⟨jan2021, 20⟩⟩, false)] := by
  decide

/-- C8 (amended): the Deduplicator parses dates without truncating them to
month precision; the duplicate key is the exact parsed date, so each row's
flag counts only rows with the same subscriber AND the same full date, and two
rows of one subscriber in the same calendar month but on different days are
never grouped (both emerge unflagged, dates unchanged). -/
theorem c8_amended_exact_date_key (subs : List DaySubRow) :
    markDuplicatesDay subs =
      subs.map (fun r => (r, decide (2 ≤ dayRawCount subs r.sub_id r.dates))) ∧
    ∀ s st₁ st₂ ym d₁ d₂, d₁ ≠ d₂ →
      markDuplicatesDay [⟨s, st₁, ⟨ym, d₁⟩⟩, ⟨s, st₂, ⟨ym, d₂⟩⟩] =
        [(⟨s, st₁, ⟨ym, d₁⟩⟩, false), (⟨s, st₂, ⟨ym, d₂⟩⟩, false)] := by
  constructor
  · simp [markDuplicatesDay, to_datetime]
  · intro s st₁ st₂ ym d₁ d₂ hne
    simp [markDuplicatesDay, to_datetime, dayRawCount, List.countP_cons, hne]
    omega

/-- C8 (witness for the amended theorem): concrete same-month, different-day
rows of subscriber "B" are left unflagged with their days intact. -/
theorem c8_amended_witness :
    markDuplicatesDay [⟨"B", "active", ⟨feb2021, 3⟩⟩,
        ⟨"B", "canceled", ⟨feb2021, 28⟩⟩] =
      [(⟨"B", "active", ⟨feb2021, 3⟩⟩, false),
       (⟨"B", "canceled", ⟨feb2021, 28⟩⟩, false)] :=
  (c8_amended_exact_date_key []).2 "B" "active" "canceled" feb2021 3 28 (by decide)

/-!
## Deduplicator lemmas
-/

/-- Every retained row was present, with a key not yet seen. -/
theorem mem_of_mem_dropDupsAux {l : List DedupRow} {seen : List (Nat × Nat)}
    {r : DedupRow} (h : r ∈ dropDupsAux l seen) : r ∈ l ∧ dkey r ∉ seen := by
  induction l generalizing seen with
  | nil => simp [dropDupsAux] at h
  | cons a as ih =>
    rw [dropDupsAux] at h
    by_cases ha : dkey a ∈ seen
    · rw [if_pos ha] at h
      obtain ⟨h1, h2⟩ := ih h
      exact ⟨List.mem_cons_of_mem a h1, h2⟩
    · rw [if_neg ha] at h
      rcases List.mem_cons.mp h with h1 | h1
      · subst h1
        exact ⟨List.mem_cons_self r as, ha⟩
      · obtain ⟨h2, h3⟩ := ih h1
        exact ⟨List.mem_cons_of_mem a h2, fun hc => h3 (List.mem_cons_of_mem _ hc)⟩

/-- Every unseen key that occurs in the input survives into the output. -/
theorem dropDupsAux_key_surj {l : List DedupRow} {seen : List (Nat × Nat)}
    {r : DedupRow} (hr : r ∈ l) (hn : dkey r ∉ seen) :
    ∃ q ∈ dropDupsAux l seen, dkey q = dkey r := by
  induction l generalizing seen with
  | nil => simp at hr
  | cons a as ih =>
    rw [dropDupsAux]
    by_cases ha : dkey a ∈ seen
    · rw [if_pos ha]
      rcases List.mem_cons.mp hr with h1 | h1
      · subst h1; exact absurd ha hn
      · exact ih h1 hn
    · rw [if_neg ha]
      by_cases hak : dkey a = dkey r
      · exact ⟨a, List.mem_cons_self a _, hak⟩
      · rcases List.mem_cons.mp hr with h1 | h1
        · subst h1; exact absurd rfl hak
        · obtain ⟨q, hq1, hq2⟩ := ih h1 (by
            intro hc
            rcases List.mem_cons.mp hc with h2 | h2
            · exact hak h2.symm
            · exact hn h2)
          exact ⟨q, List.mem_cons_of_mem a hq1, hq2⟩

/-- The retained rows have pairwise-distinct keys. -/
theorem dropDupsAux_key_nodup (l : List DedupRow) (seen : List (Nat × Nat)) :
    (dropDupsAux l seen).Pairwise (fun a b => dkey a ≠ dkey b) := by
  induction l generalizing seen with
  | nil => simp [dropDupsAux]
  | cons a as ih =>
    rw [dropDupsAux]
    by_cases ha : dkey a ∈ seen
    · rw [if_pos ha]; exact ih seen
    · rw [if_neg ha]
      refine List.Pairwise.cons ?_ (ih _)
      intro b hb hc
      exact (mem_of_mem_dropDupsAux hb).2 (hc ▸ List.mem_cons_self _ _)

/-- A row whose key occurs for no other row is itself retained. -/
theorem mem_dropDupsAux_of_unique {l : List DedupRow} {seen : List (Nat × Nat)}
    {r : DedupRow} (hr : r ∈ l) (hu : ∀ q ∈ l, dkey q = dkey r → q = r)
    (hn : dkey r ∉ seen) : r ∈ dropDupsAux l seen := by
  induction l generalizing seen with
  | nil => simp at hr
  | cons a as ih =>
    rw [dropDupsAux]
    by_cases ha : dkey a ∈ seen
    · rw [if_pos ha]
      rcases List.mem_cons.mp hr with h1 | h1
      · subst h1; exact absurd ha hn
      · exact ih h1 (fun q hq => hu q (List.mem_cons_of_mem a hq)) hn
    · rw [if_neg ha]
      by_cases hak : dkey a = dkey r
      · have har : a = r := hu a (List.mem_cons_self a as) hak
        subst har
        exact List.mem_cons_self a _
      · rcases List.mem_cons.mp hr with h1 | h1
        · subst h1; exact absurd rfl hak
        · refine List.mem_cons_of_mem a
            (ih h1 (fun q hq => hu q (List.mem_cons_of_mem a hq)) ?_)
          intro hc
          rcases List.mem_cons.mp hc with h2 | h2
          · exact hak h2.symm
          · exact hn h2

/-- Every deduplicated row is the marked copy of some raw row. -/
theorem exists_origin_of_mem_dedup {subs : List SubRow} {r : DedupRow}
    (h : r ∈ deduplicate_subscriptions subs) :
    ∃ r0 ∈ subs,
      r = ⟨r0.sub_id, r0.status, r0.dates,
            decide (2 ≤ rawCount subs r0.sub_id r0.dates)⟩ := by
  have h1 : r ∈ markDuplicates subs := (mem_of_mem_dropDupsAux h).1
  rw [markDuplicates, List.mem_map] at h1
  obtain ⟨r0, hr0, heq⟩ := h1
  exact ⟨r0, hr0, heq.symm⟩

/-- The flag of a deduplicated row records whether its key is duplicated. -/
theorem dedup_flag {subs : List SubRow} {r : DedupRow}
    (h : r ∈ deduplicate_subscriptions subs) :
    r.invalid_status = decide (2 ≤ rawCount subs r.sub_id r.dates) := by
  obtain ⟨r0, -, heq⟩ := exists_origin_of_mem_dedup h
  subst heq
  rfl

/-- The deduplicated rows have pairwise-distinct keys. -/
theorem dedup_keyNodup (subs : List SubRow) :
    keyNodup (deduplicate_subscriptions subs) :=
  dropDupsAux_key_nodup _ []

/-- A key occurs among the deduplicated rows iff it occurs in the raw input. -/
theorem dedup_key_iff {subs : List SubRow} {s m : Nat} :
    (∃ r ∈ deduplicate_subscriptions subs, dkey r = (s, m)) ↔
      1 ≤ rawCount subs s m := by
  constructor
  · rintro ⟨r, hr, hk⟩
    obtain ⟨r0, hr0, heq⟩ := exists_origin_of_mem_dedup hr
    subst heq
    simp only [dkey, Prod.mk.injEq] at hk
    refine countP_pos_iff.mpr ⟨r0, hr0, ?_⟩
    simp [sameKey, hk.1, hk.2]
  · intro h
    obtain ⟨r0, hr0, hp⟩ := countP_pos_iff.mp h
    simp only [sameKey, Bool.and_eq_true, beq_iff_eq] at hp
    have hm : (⟨r0.sub_id, r0.status, r0.dates,
        decide (2 ≤ rawCount subs r0.sub_id r0.dates)⟩ : DedupRow) ∈
          markDuplicates subs := by
      rw [markDuplicates, List.mem_map]
      exact ⟨r0, hr0, rfl⟩
    obtain ⟨q, hq1, hq2⟩ :=
      @dropDupsAux_key_surj _ [] _ hm (List.not_mem_nil _)
    refine ⟨q, hq1, ?_⟩
    rw [hq2]
    simp [dkey, hp.1, hp.2]

/-- A valid (unflagged) deduplicated row is the unique raw row of its key. -/
theorem dedup_validStatus {subs : List SubRow} {r : DedupRow}
    (h : r ∈ deduplicate_subscriptions subs) (hv : r.invalid_status = false) :
    validStatus subs r.sub_id r.dates = some r.status := by
  obtain ⟨r0, hr0, heq⟩ := exists_origin_of_mem_dedup h
  have hc1 : 1 ≤ rawCount subs r.sub_id r.dates := by
    refine countP_pos_iff.mpr ⟨r0, hr0, ?_⟩
    subst heq; simp [sameKey]
  have hc2 : ¬ 2 ≤ rawCount subs r.sub_id r.dates := by
    rw [dedup_flag h] at hv
    exact of_decide_eq_false hv
  have hone : rawCount subs r.sub_id r.dates = 1 := by omega
  have hfind : subs.find? (sameKey r.sub_id r.dates) = some r0 := by
    refine find?_eq_of_countP_eq_one hone hr0 ?_
    subst heq; simp [sameKey]
  rw [validStatus, if_pos hone, hfind]
  subst heq; rfl

/-- Conversely, a defined `validStatus` comes from an unflagged retained row
with exactly those fields. -/
theorem mem_dedup_of_validStatus {subs : List SubRow} {s m : Nat} {st : String}
    (h : validStatus subs s m = some st) :
    (⟨s, st, m, false⟩ : DedupRow) ∈ deduplicate_subscriptions subs := by
  rw [validStatus] at h
  split at h
  case isFalse => exact absurd h (by simp)
  case isTrue hone =>
    have hsome : (subs.find? (sameKey s m)).isSome = true := by
      obtain ⟨x, hx, hpx⟩ := countP_pos_iff.mp (le_of_eq hone.symm)
      exact List.find?_isSome.mpr ⟨x, hx, hpx⟩
    obtain ⟨r0, hr0⟩ := Option.isSome_iff_exists.mp hsome
    have hr0mem : r0 ∈ subs := List.mem_of_find?_eq_some hr0
    have hr0p : sameKey s m r0 = true := List.find?_some hr0
    simp only [sameKey, Bool.and_eq_true, beq_iff_eq] at hr0p
    rw [hr0, Option.map_some'] at h
    have hst : st = r0.status := by
      injection h with h'; exact h'.symm
    have hflag : decide (2 ≤ rawCount subs r0.sub_id r0.dates) = false := by
      rw [hr0p.1, hr0p.2, hone]
      decide
    have hmark : (⟨s, st, m, false⟩ : DedupRow) ∈ markDuplicates subs := by
      rw [markDuplicates, List.mem_map]
      refine ⟨r0, hr0mem, ?_⟩
      rw [hflag, hr0p.1, hr0p.2, hst]
    refine mem_dropDupsAux_of_unique hmark ?_ (List.not_mem_nil _)
    intro q hq hqk
    rw [markDuplicates, List.mem_map] at hq
    obtain ⟨q0, hq0, hq0eq⟩ := hq
    have hq0p : sameKey s m q0 = true := by
      subst hq0eq
      simp only [dkey, Prod.mk.injEq] at hqk
      simp [sameKey, hqk.1, hqk.2]
    have : q0 = r0 := by
      refine eq_of_countP_eq_one hone hq0 hq0p hr0mem ?_
      simp [sameKey, hr0p.1, hr0p.2]
    subst hq0eq
    rw [this, hr0p.1, hr0p.2, hst, hone]
    rfl

/-!
## Timeline Normalizer lemmas
-/

/-- The row that the reindex places at grid point `(s, m)`: the existing row
if present, else the synthetic fill row. -/
def gridRow (rows : List DedupRow) (s m : Nat) : DedupRow :=
  match rows.find? (fun r => r.sub_id == s && r.dates == m) with
  | some r => r
  | none => ⟨s, "True", m, true⟩

theorem fill_eq_flatMap (rows : List DedupRow) :
    fill_missing_months rows = (subsOf rows).flatMap (fillBlock rows) := rfl

theorem fillBlock_eq_gridRow (rows : List DedupRow) (s : Nat) :
    fillBlock rows s =
      match (subDates rows s).min?, (subDates rows s).max? with
      | some lo, some hi =>
        (List.range (hi + 1 - lo)).map (fun i => gridRow rows s (lo + i))
      | _, _ => [] := rfl

theorem gridRow_sub_id (rows : List DedupRow) (s m : Nat) :
    (gridRow rows s m).sub_id = s := by
  rw [gridRow]
  split
  case h_1 r hr =>
    have := List.find?_some hr
    simp only [Bool.and_eq_true, beq_iff_eq] at this
    exact this.1
  case h_2 => rfl

theorem gridRow_dates (rows : List DedupRow) (s m : Nat) :
    (gridRow rows s m).dates = m := by
  rw [gridRow]
  split
  case h_1 r hr =>
    have := List.find?_some hr
    simp only [Bool.and_eq_true, beq_iff_eq] at this
    exact this.2
  case h_2 => rfl

theorem gridRow_mem_or_synth (rows : List DedupRow) (s m : Nat) :
    gridRow rows s m ∈ rows ∨ gridRow rows s m = ⟨s, "True", m, true⟩ := by
  rw [gridRow]
  split
  case h_1 r hr => exact Or.inl (List.mem_of_find?_eq_some hr)
  case h_2 => exact Or.inr rfl

theorem mem_subsOf_iff {rows : List DedupRow} {s : Nat} :
    s ∈ subsOf rows ↔ ∃ r ∈ rows, r.sub_id = s := by
  rw [subsOf, List.mem_dedup, List.mem_map]

theorem mem_subDates_iff {rows : List DedupRow} {s m : Nat} :
    m ∈ subDates rows s ↔ ∃ r ∈ rows, r.sub_id = s ∧ r.dates = m := by
  rw [subDates, List.mem_map]
  constructor
  · rintro ⟨r, hr, h⟩
    rw [List.mem_filter] at hr
    exact ⟨r, hr.1, by simpa using hr.2, h⟩
  · rintro ⟨r, hr, h1, h2⟩
    exact ⟨r, List.mem_filter.mpr ⟨hr, by simpa using h1⟩, h2⟩

/-- Full elimination principle for membership in the filled timeline. -/
theorem mem_fill_elim {rows : List DedupRow} {r : DedupRow}
    (h : r ∈ fill_missing_months rows) :
    ∃ s ∈ subsOf rows, ∃ lo hi,
      (subDates rows s).min? = some lo ∧ (subDates rows s).max? = some hi ∧
      ∃ m, lo ≤ m ∧ m ≤ hi ∧ r = gridRow rows s m := by
  rw [fill_eq_flatMap, List.mem_flatMap] at h
  obtain ⟨s, hs, hr⟩ := h
  refine ⟨s, hs, ?_⟩
  rw [fillBlock_eq_gridRow] at hr
  split at hr
  case h_1 lo hi hlo hhi =>
    rw [List.mem_map] at hr
    obtain ⟨i, hi', heq⟩ := hr
    rw [List.mem_range] at hi'
    refine ⟨lo, hi, hlo, hhi, lo + i, Nat.le_add_right lo i, ?_, heq.symm⟩
    omega
  case h_2 => simp at hr

/-- Introduction rule: every grid point of a present subscriber's range is in
the filled timeline. -/
theorem gridRow_mem_fill {rows : List DedupRow} {s lo hi m : Nat}
    (hs : s ∈ subsOf rows)
    (hlo : (subDates rows s).min? = some lo)
    (hhi : (subDates rows s).max? = some hi)
    (h1 : lo ≤ m) (h2 : m ≤ hi) :
    gridRow rows s m ∈ fill_missing_months rows := by
  rw [fill_eq_flatMap, List.mem_flatMap]
  refine ⟨s, hs, ?_⟩
  rw [fillBlock_eq_gridRow, hlo, hhi]
  rw [List.mem_map]
  refine ⟨m - lo, ?_, by rw [Nat.add_sub_cancel' h1]⟩
  rw [List.mem_range]
  omega

/-- At most one row carries a given key when keys are pairwise distinct. -/
theorem countP_key_le_one {l : List DedupRow} {s m : Nat}
    (h : keyNodup l) :
    l.countP (fun q => q.sub_id == s && q.dates == m) ≤ 1 := by
  induction l with
  | nil => simp
  | cons a as ih =>
    rw [keyNodup, List.pairwise_cons] at h
    rw [List.countP_cons]
    by_cases hp : (a.sub_id == s && a.dates == m) = true
    · have hz : as.countP (fun q => q.sub_id == s && q.dates == m) = 0 := by
        rw [List.countP_eq_zero]
        intro q hq hqp
        simp only [Bool.and_eq_true, beq_iff_eq] at hp hqp
        exact h.1 q hq (by rw [dkey, dkey, hp.1, hp.2, hqp.1, hqp.2])
      simp [hz, hp]
    · rw [Bool.not_eq_true] at hp
      rw [hp]
      simpa using ih h.2

/-- With pairwise-distinct keys, `find?` at a member's key returns that row. -/
theorem find?_key_of_keyNodup {rows : List DedupRow} {r : DedupRow}
    (h : keyNodup rows) (hr : r ∈ rows) :
    rows.find? (fun q => q.sub_id == r.sub_id && q.dates == r.dates) = some r := by
  have h1 : rows.countP (fun q => q.sub_id == r.sub_id && q.dates == r.dates) = 1 := by
    have hle := @countP_key_le_one _ r.sub_id r.dates h
    have hge : 1 ≤ rows.countP (fun q => q.sub_id == r.sub_id && q.dates == r.dates) :=
      countP_pos_iff.mpr ⟨r, hr, by simp⟩
    omega
  exact find?_eq_of_countP_eq_one h1 hr (by simp)

/-- With pairwise-distinct keys, every input row survives the reindex. -/
theorem mem_fill_of_mem {rows : List DedupRow} {r : DedupRow}
    (h : keyNodup rows) (hr : r ∈ rows) :
    r ∈ fill_missing_months rows := by
  have hsub : r.sub_id ∈ subsOf rows := mem_subsOf_iff.mpr ⟨r, hr, rfl⟩
  have hd : r.dates ∈ subDates rows r.sub_id := mem_subDates_iff.mpr ⟨r, hr, rfl, rfl⟩
  have hne : subDates rows r.sub_id ≠ [] := List.ne_nil_of_mem hd
  obtain ⟨lo, hlo⟩ : ∃ lo, (subDates rows r.sub_id).min? = some lo := by
    match hm : (subDates rows r.sub_id).min? with
    | some lo => exact ⟨lo, rfl⟩
    | none => exact absurd (List.min?_eq_none_iff.mp hm) hne
  obtain ⟨hi, hhi⟩ : ∃ hi, (subDates rows r.sub_id).max? = some hi := by
    match hm : (subDates rows r.sub_id).max? with
    | some hi => exact ⟨hi, rfl⟩
    | none => exact absurd (List.max?_eq_none_iff.mp hm) hne
  have h1 : lo ≤ r.dates := (List.min?_eq_some_iff'.mp hlo).2 _ hd
  have h2 : r.dates ≤ hi := (List.max?_eq_some_iff'.mp hhi).2 _ hd
  have hgrid : gridRow rows r.sub_id r.dates = r := by
    rw [gridRow, find?_key_of_keyNodup h hr]
  rw [← hgrid]
  exact gridRow_mem_fill hsub hlo hhi h1 h2

theorem mem_fillBlock_sub_id {rows : List DedupRow} {s : Nat} {r : DedupRow}
    (h : r ∈ fillBlock rows s) : r.sub_id = s := by
  rw [fillBlock_eq_gridRow] at h
  split at h
  case h_1 lo hi hlo hhi =>
    rw [List.mem_map] at h
    obtain ⟨i, -, heq⟩ := h
    rw [← heq]
    exact gridRow_sub_id rows s (lo + i)
  case h_2 => simp at h

/-- The filled timeline has pairwise-distinct `(sub_id, dates)` keys. -/
theorem fill_keyNodup (rows : List DedupRow) :
    keyNodup (fill_missing_months rows) := by
  rw [keyNodup, fill_eq_flatMap, List.pairwise_flatMap]
  constructor
  · intro s hs
    rw [fillBlock_eq_gridRow]
    split
    case h_1 lo hi hlo hhi =>
      rw [List.pairwise_map]
      refine (List.pairwise_lt_range _).imp ?_
      intro i j hij hk
      have h1 : (gridRow rows s (lo + i)).dates = lo + i := gridRow_dates rows s (lo + i)
      have h2 : (gridRow rows s (lo + j)).dates = lo + j := gridRow_dates rows s (lo + j)
      have : (gridRow rows s (lo + i)).dates = (gridRow rows s (lo + j)).dates := by
        rw [dkey, dkey] at hk
        exact congrArg Prod.snd hk
      omega
    case h_2 => exact List.Pairwise.nil
  · have hnd : (subsOf rows).Nodup := List.nodup_dedup _
    refine hnd.imp ?_
    intro s₁ s₂ hne x hx y hy hk
    have h1 : x.sub_id = s₁ := mem_fillBlock_sub_id hx
    have h2 : y.sub_id = s₂ := mem_fillBlock_sub_id hy
    rw [dkey, dkey] at hk
    injection hk with ha hb
    exact hne (by rw [← h1, ← h2, ha])

/-- Filtering a flatMap over distinct tags to one tag yields that tag's block. -/
theorem filter_flatMap_single {l : List Nat} {g : Nat → List DedupRow}
    {p : DedupRow → Bool} {s : Nat} (hnd : l.Nodup) (hs : s ∈ l)
    (hg : ∀ t ∈ l, ∀ x ∈ g t, (p x = true ↔ t = s)) :
    (l.flatMap g).filter p = g s := by
  induction l with
  | nil => simp at hs
  | cons a as ih =>
    rw [List.flatMap_cons, List.filter_append]
    rw [List.nodup_cons] at hnd
    rcases List.mem_cons.mp hs with h1 | h1
    · subst h1
      have hga : (g s).filter p = g s := by
        rw [List.filter_eq_self]
        intro x hx
        exact (hg s (List.mem_cons_self s as) x hx).mpr rfl
      have hrest : (as.flatMap g).filter p = [] := by
        rw [List.filter_eq_nil_iff]
        intro x hx hpx
        rw [List.mem_flatMap] at hx
        obtain ⟨t, ht, hxt⟩ := hx
        exact hnd.1 ((hg t (List.mem_cons_of_mem s ht) x hxt).mp hpx ▸ ht)
      rw [hga, hrest, List.append_nil]
    · have hga : (g a).filter p = [] := by
        rw [List.filter_eq_nil_iff]
        intro x hx hpx
        exact hnd.1 ((hg a (List.mem_cons_self a as) x hx).mp hpx ▸ h1)
      rw [hga, List.nil_append]
      exact ih hnd.2 h1 (fun t ht => hg t (List.mem_cons_of_mem a ht))

/-- One subscriber's rows of the filled timeline are exactly its block. -/
theorem fill_filter_sub {rows : List DedupRow} {s : Nat} (hs : s ∈ subsOf rows) :
    (fill_missing_months rows).filter (fun r => r.sub_id == s) = fillBlock rows s := by
  rw [fill_eq_flatMap]
  refine filter_flatMap_single (List.nodup_dedup _) hs ?_
  intro t ht x hx
  rw [beq_iff_eq, mem_fillBlock_sub_id hx]

/-- The dates of one subscriber's block: the contiguous range from its min to
its max observed month. -/
theorem fillBlock_map_dates {rows : List DedupRow} {s lo hi : Nat}
    (hlo : (subDates rows s).min? = some lo)
    (hhi : (subDates rows s).max? = some hi) :
    (fillBlock rows s).map (fun r => r.dates) = List.range' lo (hi + 1 - lo) := by
  rw [fillBlock_eq_gridRow, hlo, hhi, List.map_map, List.range'_eq_map_range]
  refine List.map_congr_left ?_
  intro i hi'
  exact gridRow_dates rows s (lo + i)

/-- A valid (unflagged) timeline row was already present before the reindex. -/
theorem fill_valid_mem {rows : List DedupRow} {r : DedupRow}
    (h : r ∈ fill_missing_months rows) (hv : r.invalid_status = false) :
    r ∈ rows := by
  obtain ⟨s, hs, lo, hi, hlo, hhi, m, h1, h2, heq⟩ := mem_fill_elim h
  rcases gridRow_mem_or_synth rows s m with hmem | hsynth
  · exact heq ▸ hmem
  · rw [heq, hsynth] at hv
    simp at hv

/-- A valid row of the normalized timeline carries the status of the unique
valid raw row at its key. -/
theorem timeline_valid_validStatus {subs : List SubRow} {r : DedupRow}
    (h : r ∈ normalizedTimeline subs) (hv : r.invalid_status = false) :
    validStatus subs r.sub_id r.dates = some r.status :=
  dedup_validStatus (fill_valid_mem h hv) hv

/-- Conversely, every defined `validStatus` appears as an unflagged row of the
normalized timeline. -/
theorem validStatus_mem_timeline {subs : List SubRow} {s m : Nat} {st : String}
    (h : validStatus subs s m = some st) :
    (⟨s, st, m, false⟩ : DedupRow) ∈ normalizedTimeline subs :=
  mem_fill_of_mem (dedup_keyNodup subs) (mem_dedup_of_validStatus h)

/-!
## `latestBy` / `earliestBy` characterizations
-/

theorem latestBy_go (l : List DedupRow) (p0 : DedupRow) :
    ∃ q, l.foldl (fun acc q =>
        match acc with
        | none => some q
        | some p => if p.dates ≤ q.dates then some q else some p) (some p0) = some q ∧
      (q ∈ l ∨ q = p0) ∧ p0.dates ≤ q.dates ∧ ∀ p ∈ l, p.dates ≤ q.dates := by
  induction l generalizing p0 with
  | nil => exact ⟨p0, rfl, Or.inr rfl, Nat.le_refl _, by simp⟩
  | cons a as ih =>
    rw [List.foldl_cons]
    show ∃ q, List.foldl _ (if p0.dates ≤ a.dates then some a else some p0) as = some q ∧
      (q ∈ a :: as ∨ q = p0) ∧ p0.dates ≤ q.dates ∧ ∀ p ∈ a :: as, p.dates ≤ q.dates
    by_cases hle : p0.dates ≤ a.dates
    · rw [if_pos hle]
      obtain ⟨q, h1, h2, h3, h4⟩ := ih a
      refine ⟨q, h1, ?_, Nat.le_trans hle h3, ?_⟩
      · rcases h2 with h2 | h2
        · exact Or.inl (List.mem_cons_of_mem a h2)
        · exact Or.inl (h2 ▸ List.mem_cons_self a as)
      · intro p hp
        rcases List.mem_cons.mp hp with hp | hp
        · exact hp ▸ h3
        · exact h4 p hp
    · rw [if_neg hle]
      obtain ⟨q, h1, h2, h3, h4⟩ := ih p0
      refine ⟨q, h1, ?_, h3, ?_⟩
      · rcases h2 with h2 | h2
        · exact Or.inl (List.mem_cons_of_mem a h2)
        · exact Or.inr h2
      · intro p hp
        rcases List.mem_cons.mp hp with hp | hp
        · subst hp
          exact Nat.le_trans (Nat.le_of_lt (Nat.lt_of_not_le hle)) h3
        · exact h4 p hp

theorem latestBy_spec (l : List DedupRow) :
    (l = [] ∧ latestBy l = none) ∨
      ∃ q, latestBy l = some q ∧ q ∈ l ∧ ∀ p ∈ l, p.dates ≤ q.dates := by
  match l with
  | [] => exact Or.inl ⟨rfl, rfl⟩
  | a :: as =>
    refine Or.inr ?_
    obtain ⟨q, h1, h2, h3, h4⟩ := latestBy_go as a
    refine ⟨q, h1, ?_, ?_⟩
    · rcases h2 with h2 | h2
      · exact List.mem_cons_of_mem a h2
      · exact h2 ▸ List.mem_cons_self a as
    · intro p hp
      rcases List.mem_cons.mp hp with hp | hp
      · exact hp ▸ h3
      · exact h4 p hp

theorem earliestBy_go (l : List DedupRow) (p0 : DedupRow) :
    ∃ q, l.foldl (fun acc q =>
        match acc with
        | none => some q
        | some p => if q.dates < p.dates then some q else some p) (some p0) = some q ∧
      (q ∈ l ∨ q = p0) ∧ q.dates ≤ p0.dates ∧ ∀ p ∈ l, q.dates ≤ p.dates := by
  induction l generalizing p0 with
  | nil => exact ⟨p0, rfl, Or.inr rfl, Nat.le_refl _, by simp⟩
  | cons a as ih =>
    rw [List.foldl_cons]
    show ∃ q, List.foldl _ (if a.dates < p0.dates then some a else some p0) as = some q ∧
      (q ∈ a :: as ∨ q = p0) ∧ q.dates ≤ p0.dates ∧ ∀ p ∈ a :: as, q.dates ≤ p.dates
    by_cases hlt : a.dates < p0.dates
    · rw [if_pos hlt]
      obtain ⟨q, h1, h2, h3, h4⟩ := ih a
      refine ⟨q, h1, ?_, Nat.le_trans h3 (Nat.le_of_lt hlt), ?_⟩
      · rcases h2 with h2 | h2
        · exact Or.inl (List.mem_cons_of_mem a h2)
        · exact Or.inl (h2 ▸ List.mem_cons_self a as)
      · intro p hp
        rcases List.mem_cons.mp hp with hp | hp
        · exact hp ▸ h3
        · exact h4 p hp
    · rw [if_neg hlt]
      obtain ⟨q, h1, h2, h3, h4⟩ := ih p0
      refine ⟨q, h1, ?_, h3, ?_⟩
      · rcases h2 with h2 | h2
        · exact Or.inl (List.mem_cons_of_mem a h2)
        · exact Or.inr h2
      · intro p hp
        rcases List.mem_cons.mp hp with hp | hp
        · subst hp
          exact Nat.le_trans h3 (Nat.le_of_not_lt hlt)
        · exact h4 p hp

theorem earliestBy_spec (l : List DedupRow) :
    (l = [] ∧ earliestBy l = none) ∨
      ∃ q, earliestBy l = some q ∧ q ∈ l ∧ ∀ p ∈ l, q.dates ≤ p.dates := by
  match l with
  | [] => exact Or.inl ⟨rfl, rfl⟩
  | a :: as =>
    refine Or.inr ?_
    obtain ⟨q, h1, h2, h3, h4⟩ := earliestBy_go as a
    refine ⟨q, h1, ?_, ?_⟩
    · rcases h2 with h2 | h2
      · exact List.mem_cons_of_mem a h2
      · exact h2 ▸ List.mem_cons_self a as
    · intro p hp
      rcases List.mem_cons.mp hp with hp | hp
      · exact hp ▸ h3
      · exact h4 p hp

/-!
## Claim C4
-/

theorem mem_subRawDates_iff {subs : List SubRow} {s m : Nat} :
    m ∈ subRawDates subs s ↔ 1 ≤ rawCount subs s m := by
  rw [subRawDates, List.mem_map]
  constructor
  · rintro ⟨r, hr, h⟩
    rw [List.mem_filter] at hr
    refine countP_pos_iff.mpr ⟨r, hr.1, ?_⟩
    have := hr.2
    simp only [beq_iff_eq] at this
    simp [sameKey, this, h]
  · intro h
    obtain ⟨r, hr, hp⟩ := countP_pos_iff.mp h
    simp only [sameKey, Bool.and_eq_true, beq_iff_eq] at hp
    exact ⟨r, List.mem_filter.mpr ⟨hr, by simp [hp.1]⟩, hp.2⟩

/-- The deduplicated rows observe exactly the raw dates per subscriber. -/
theorem subDates_dedup_iff {subs : List SubRow} {s m : Nat} :
    m ∈ subDates (deduplicate_subscriptions subs) s ↔ m ∈ subRawDates subs s := by
  rw [mem_subDates_iff, mem_subRawDates_iff, ← dedup_key_iff]
  constructor
  · rintro ⟨r, hr, h1, h2⟩
    exact ⟨r, hr, by rw [dkey, h1, h2]⟩
  · rintro ⟨r, hr, hk⟩
    rw [dkey, Prod.mk.injEq] at hk
    exact ⟨r, hr, hk.1, hk.2⟩

/-- C4: after deduplication and month filling, the timeline has exactly one
row per `(subscriber, month)` key, and each input subscriber's months are
exactly the contiguous range from its minimum to its maximum observed month
(a single observed month giving a single row). -/
theorem c4_complete_contiguous_timeline (subs : List SubRow) :
    keyNodup (normalizedTimeline subs) ∧
    ∀ s, (∃ r ∈ subs, r.sub_id = s) → ∃ lo hi,
      (subRawDates subs s).min? = some lo ∧
      (subRawDates subs s).max? = some hi ∧
      ((normalizedTimeline subs).filter (fun r => r.sub_id == s)).map
          (fun r => r.dates) = List.range' lo (hi + 1 - lo) ∧
      (lo = hi →
        ((normalizedTimeline subs).filter (fun r => r.sub_id == s)).length = 1) := by
  refine ⟨fill_keyNodup _, ?_⟩
  rintro s ⟨r0, hr0, hs0⟩
  have hmemraw : r0.dates ∈ subRawDates subs s :=
    mem_subRawDates_iff.mpr (countP_pos_iff.mpr ⟨r0, hr0, by simp [sameKey, hs0]⟩)
  have hsets : ∀ x, x ∈ subDates (deduplicate_subscriptions subs) s ↔
      x ∈ subRawDates subs s := fun x => subDates_dedup_iff
  have hmemd : r0.dates ∈ subDates (deduplicate_subscriptions subs) s :=
    (hsets r0.dates).mpr hmemraw
  have hne : subDates (deduplicate_subscriptions subs) s ≠ [] :=
    List.ne_nil_of_mem hmemd
  obtain ⟨lo, hlo⟩ : ∃ lo, (subDates (deduplicate_subscriptions subs) s).min? = some lo := by
    match hm : (subDates (deduplicate_subscriptions subs) s).min? with
    | some lo => exact ⟨lo, rfl⟩
    | none => exact absurd (List.min?_eq_none_iff.mp hm) hne
  obtain ⟨hi, hhi⟩ : ∃ hi, (subDates (deduplicate_subscriptions subs) s).max? = some hi := by
    match hm : (subDates (deduplicate_subscriptions subs) s).max? with
    | some hi => exact ⟨hi, rfl⟩
    | none => exact absurd (List.max?_eq_none_iff.mp hm) hne
  have hsmem : s ∈ subsOf (deduplicate_subscriptions subs) := by
    obtain ⟨rd, hrd, hk⟩ := mem_subDates_iff.mp hmemd
    exact mem_subsOf_iff.mpr ⟨rd, hrd, hk.1⟩
  have hfilter : ((normalizedTimeline subs).filter (fun r => r.sub_id == s)).map
      (fun r => r.dates) = List.range' lo (hi + 1 - lo) := by
    rw [normalizedTimeline, fill_filter_sub hsmem, fillBlock_map_dates hlo hhi]
  refine ⟨lo, hi, ?_, ?_, hfilter, ?_⟩
  · rw [← hlo]
    exact (min?_congr_mem hsets).symm
  · rw [← hhi]
    exact (max?_congr_mem hsets).symm
  · intro hlohi
    have := congrArg List.length hfilter
    rw [List.length_map, List.length_range'] at this
    omega

/-- C4 witness: subscriber 2 observed at months 5 and 8 gets the contiguous
grid [5, 6, 7, 8], one row per month. -/
theorem c4_witness :
    ∃ lo hi,
      (subRawDates [⟨2, "active", 5⟩, ⟨2, "canceled", 8⟩] 2).min? = some lo ∧
      (subRawDates [⟨2, "active", 5⟩, ⟨2, "canceled", 8⟩] 2).max? = some hi ∧
      ((normalizedTimeline [⟨2, "active", 5⟩, ⟨2, "canceled", 8⟩]).filter
          (fun r => r.sub_id == 2)).map (fun r => r.dates) =
        List.range' lo (hi + 1 - lo) ∧
      (lo = hi →
        ((normalizedTimeline [⟨2, "active", 5⟩, ⟨2, "canceled", 8⟩]).filter
            (fun r => r.sub_id == 2)).length = 1) :=
  (c4_complete_contiguous_timeline [⟨2, "active", 5⟩, ⟨2, "canceled", 8⟩]).2 2
    ⟨⟨2, "active", 5⟩, by decide, rfl⟩

/-!
## Status Resolver lemmas and Claim C1
-/

theorem latestBy_eq_none_iff {l : List DedupRow} : latestBy l = none ↔ l = [] := by
  constructor
  · intro h
    rcases latestBy_spec l with ⟨h1, -⟩ | ⟨q, h1, -, -⟩
    · exact h1
    · rw [h] at h1; exact absurd h1 (by simp)
  · intro h; subst h; rfl

theorem earliestBy_eq_none_iff {l : List DedupRow} : earliestBy l = none ↔ l = [] := by
  constructor
  · intro h
    rcases earliestBy_spec l with ⟨h1, -⟩ | ⟨q, h1, -, -⟩
    · exact h1
    · rw [h] at h1; exact absurd h1 (by simp)
  · intro h; subst h; rfl

/-- An unflagged row keeps its status. -/
theorem glvs_valid {rows : List DedupRow} {row : DedupRow}
    (hv : row.invalid_status = false) :
    get_last_valid_status rows row = row.status := by
  unfold get_last_valid_status
  rw [hv]
  rfl

/-- A flagged row resolves to the `latestBy` result of the valid-earlier
filter, when that is non-empty. -/
theorem glvs_prev {rows : List DedupRow} {row q : DedupRow}
    (hv : row.invalid_status = true)
    (h : latestBy (rows.filter (fun q =>
      q.sub_id == row.sub_id && decide (q.dates < row.dates) &&
        q.invalid_status == false)) = some q) :
    get_last_valid_status rows row = q.status := by
  unfold get_last_valid_status
  rw [hv, if_pos rfl]
  simp only [h]

/-- With no valid earlier row, a flagged row resolves to the `earliestBy`
result of the valid-later filter, when that is non-empty. -/
theorem glvs_next {rows : List DedupRow} {row q : DedupRow}
    (hv : row.invalid_status = true)
    (h1 : latestBy (rows.filter (fun q =>
      q.sub_id == row.sub_id && decide (q.dates < row.dates) &&
        q.invalid_status == false)) = none)
    (h2 : earliestBy (rows.filter (fun q =>
      q.sub_id == row.sub_id && decide (row.dates < q.dates) &&
        q.invalid_status == false)) = some q) :
    get_last_valid_status rows row = q.status := by
  unfold get_last_valid_status
  rw [hv, if_pos rfl]
  simp only [h1, h2]

/-- With no valid row at all on either side, a flagged row resolves to
`'canceled'`. -/
theorem glvs_canceled {rows : List DedupRow} {row : DedupRow}
    (hv : row.invalid_status = true)
    (h1 : latestBy (rows.filter (fun q =>
      q.sub_id == row.sub_id && decide (q.dates < row.dates) &&
        q.invalid_status == false)) = none)
    (h2 : earliestBy (rows.filter (fun q =>
      q.sub_id == row.sub_id && decide (row.dates < q.dates) &&
        q.invalid_status == false)) = none) :
    get_last_valid_status rows row = "canceled" := by
  unfold get_last_valid_status
  rw [hv, if_pos rfl]
  simp only [h1, h2]

/-- Membership in the valid-earlier filter, spelled out. -/
theorem mem_prevValid_iff {rows : List DedupRow} {row q : DedupRow} :
    q ∈ rows.filter (fun q =>
        q.sub_id == row.sub_id && decide (q.dates < row.dates) &&
          q.invalid_status == false) ↔
      q ∈ rows ∧ q.sub_id = row.sub_id ∧ q.dates < row.dates ∧
        q.invalid_status = false := by
  rw [List.mem_filter]
  simp [and_assoc]

/-- Membership in the valid-later filter, spelled out. -/
theorem mem_nextValid_iff {rows : List DedupRow} {row q : DedupRow} :
    q ∈ rows.filter (fun q =>
        q.sub_id == row.sub_id && decide (row.dates < q.dates) &&
          q.invalid_status == false) ↔
      q ∈ rows ∧ q.sub_id = row.sub_id ∧ row.dates < q.dates ∧
        q.invalid_status = false := by
  rw [List.mem_filter]
  simp [and_assoc]

/-- C1: a flagged (duplicate or synthetic) row of the normalized timeline
resolves to the status of the chronologically latest valid row of the same
subscriber strictly earlier, else to the chronologically earliest valid row
strictly later, else to `'canceled'`; an unflagged row keeps its status. -/
theorem c1_status_resolution_rule (subs : List SubRow) (r : DedupRow)
    (hr : r ∈ normalizedTimeline subs) :
    (r.invalid_status = false →
      get_last_valid_status (normalizedTimeline subs) r = r.status) ∧
    (r.invalid_status = true →
      ((∃ q ∈ normalizedTimeline subs,
          q.sub_id = r.sub_id ∧ q.dates < r.dates ∧ q.invalid_status = false) →
        ∃ q ∈ normalizedTimeline subs,
          q.sub_id = r.sub_id ∧ q.dates < r.dates ∧ q.invalid_status = false ∧
          (∀ p ∈ normalizedTimeline subs,
            p.sub_id = r.sub_id → p.dates < r.dates → p.invalid_status = false →
              p.dates ≤ q.dates) ∧
          get_last_valid_status (normalizedTimeline subs) r = q.status) ∧
      ((¬ ∃ q ∈ normalizedTimeline subs,
          q.sub_id = r.sub_id ∧ q.dates < r.dates ∧ q.invalid_status = false) →
        (∃ q ∈ normalizedTimeline subs,
          q.sub_id = r.sub_id ∧ r.dates < q.dates ∧ q.invalid_status = false) →
        ∃ q ∈ normalizedTimeline subs,
          q.sub_id = r.sub_id ∧ r.dates < q.dates ∧ q.invalid_status = false ∧
          (∀ p ∈ normalizedTimeline subs,
            p.sub_id = r.sub_id → r.dates < p.dates → p.invalid_status = false →
              q.dates ≤ p.dates) ∧
          get_last_valid_status (normalizedTimeline subs) r = q.status) ∧
      ((¬ ∃ q ∈ normalizedTimeline subs,
          q.sub_id = r.sub_id ∧ q.dates < r.dates ∧ q.invalid_status = false) →
        (¬ ∃ q ∈ normalizedTimeline subs,
          q.sub_id = r.sub_id ∧ r.dates < q.dates ∧ q.invalid_status = false) →
        get_last_valid_status (normalizedTimeline subs) r = "canceled")) := by
  refine ⟨fun hv => glvs_valid hv, fun hv => ⟨?_, ?_, ?_⟩⟩
  · rintro ⟨q0, hq0, hq0s, hq0d, hq0v⟩
    have hq0P : q0 ∈ (normalizedTimeline subs).filter (fun q =>
        q.sub_id == r.sub_id && decide (q.dates < r.dates) &&
          q.invalid_status == false) :=
      mem_prevValid_iff.mpr ⟨hq0, hq0s, hq0d, hq0v⟩
    rcases latestBy_spec ((normalizedTimeline subs).filter (fun q =>
        q.sub_id == r.sub_id && decide (q.dates < r.dates) &&
          q.invalid_status == false)) with ⟨h1, -⟩ | ⟨qm, h1, h2, h3⟩
    · rw [h1] at hq0P
      exact absurd hq0P (List.not_mem_nil q0)
    · obtain ⟨hm, hs, hd, hv'⟩ := mem_prevValid_iff.mp h2
      exact ⟨qm, hm, hs, hd, hv',
        fun p hp hps hpd hpv =>
          h3 p (mem_prevValid_iff.mpr ⟨hp, hps, hpd, hpv⟩),
        glvs_prev hv h1⟩
  · intro hno
    rintro ⟨q0, hq0, hq0s, hq0d, hq0v⟩
    have hPnil : (normalizedTimeline subs).filter (fun q =>
        q.sub_id == r.sub_id && decide (q.dates < r.dates) &&
          q.invalid_status == false) = [] := by
      rw [List.eq_nil_iff_forall_not_mem]
      intro q hq
      obtain ⟨a, b, c, d⟩ := mem_prevValid_iff.mp hq
      exact hno ⟨q, a, b, c, d⟩
    have h1 := latestBy_eq_none_iff.mpr hPnil
    have hq0P : q0 ∈ (normalizedTimeline subs).filter (fun q =>
        q.sub_id == r.sub_id && decide (r.dates < q.dates) &&
          q.invalid_status == false) :=
      mem_nextValid_iff.mpr ⟨hq0, hq0s, hq0d, hq0v⟩
    rcases earliestBy_spec ((normalizedTimeline subs).filter (fun q =>
        q.sub_id == r.sub_id && decide (r.dates < q.dates) &&
          q.invalid_status == false)) with ⟨h2, -⟩ | ⟨qm, h2, h3, h4⟩
    · rw [h2] at hq0P
      exact absurd hq0P (List.not_mem_nil q0)
    · obtain ⟨hm, hs, hd, hv'⟩ := mem_nextValid_iff.mp h3
      exact ⟨qm, hm, hs, hd, hv',
        fun p hp hps hpd hpv =>
          h4 p (mem_nextValid_iff.mpr ⟨hp, hps, hpd, hpv⟩),
        glvs_next hv h1 h2⟩
  · intro hno1 hno2
    have hPnil : (normalizedTimeline subs).filter (fun q =>
        q.sub_id == r.sub_id && decide (q.dates < r.dates) &&
          q.invalid_status == false) = [] := by
      rw [List.eq_nil_iff_forall_not_mem]
      intro q hq
      obtain ⟨a, b, c, d⟩ := mem_prevValid_iff.mp hq
      exact hno1 ⟨q, a, b, c, d⟩
    have hNnil : (normalizedTimeline subs).filter (fun q =>
        q.sub_id == r.sub_id && decide (r.dates < q.dates) &&
          q.invalid_status == false) = [] := by
      rw [List.eq_nil_iff_forall_not_mem]
      intro q hq
      obtain ⟨a, b, c, d⟩ := mem_nextValid_iff.mp hq
      exact hno2 ⟨q, a, b, c, d⟩
    exact glvs_canceled hv (latestBy_eq_none_iff.mpr hPnil)
      (earliestBy_eq_none_iff.mpr hNnil)

/-- C1 witness: subscriber 3 with valid rows at months 10 (active) and
12 (canceled); the synthetic month-11 row resolves to the status of its
latest valid earlier neighbor, month 10. -/
theorem c1_witness :
    ∃ q ∈ normalizedTimeline [⟨3, "active", 10⟩, ⟨3, "canceled", 12⟩],
      q.sub_id = 3 ∧ q.dates < 11 ∧ q.invalid_status = false ∧
      (∀ p ∈ normalizedTimeline [⟨3, "active", 10⟩, ⟨3, "canceled", 12⟩],
        p.sub_id = 3 → p.dates < 11 → p.invalid_status = false →
          p.dates ≤ q.dates) ∧
      get_last_valid_status
        (normalizedTimeline [⟨3, "active", 10⟩, ⟨3, "canceled", 12⟩])
        ⟨3, "True", 11, true⟩ = q.status :=
  ((c1_status_resolution_rule [⟨3, "active", 10⟩, ⟨3, "canceled", 12⟩]
      ⟨3, "True", 11, true⟩ (by decide)).2 rfl).1
    ⟨⟨3, "active", 10, false⟩, by decide, rfl, by decide, rfl⟩

/-!
## Metric calculator lemmas and Claims C5, C6
-/

theorem msfs_eq (rows : List DedupRow) (row : DedupRow) :
    get_months_since_first_subscription rows row =
      (((rows.filter (fun q =>
          q.sub_id == row.sub_id && q.status == "active" &&
            decide (q.dates ≤ row.dates))).map (fun q => q.dates)).min?).map
        (fun (f : Nat) => (row.dates : Int) - (f : Int)) := by
  unfold get_months_since_first_subscription
  cases ((rows.filter (fun q =>
      q.sub_id == row.sub_id && q.status == "active" &&
        decide (q.dates ≤ row.dates))).map (fun q => q.dates)).min? <;> rfl

theorem mssc_eq (rows : List DedupRow) (row : DedupRow) :
    get_months_since_status_change rows row =
      (((rows.filter (fun q =>
          q.sub_id == row.sub_id && decide (q.dates < row.dates) &&
            q.status != row.status)).map (fun q => q.dates)).max?).map
        (fun (c : Nat) => (row.dates : Int) - (c : Int)) := by
  unfold get_months_since_status_change
  cases ((rows.filter (fun q =>
      q.sub_id == row.sub_id && decide (q.dates < row.dates) &&
        q.status != row.status)).map (fun q => q.dates)).max? <;> rfl

/-- C5: months_since_first_subscription is the calendar-month difference to the
minimum month among the subscriber's resolved rows with status 'active' and
month ≤ the current month; null iff no such row, non-negative otherwise, and 0
on the subscriber's first active month. -/
theorem c5_months_since_first_subscription (subs : List SubRow) (r : DedupRow)
    (hr : r ∈ resolvedTimeline subs) :
    (get_months_since_first_subscription (resolvedTimeline subs) r = none ↔
      ¬ ∃ q ∈ resolvedTimeline subs,
        q.sub_id = r.sub_id ∧ q.status = "active" ∧ q.dates ≤ r.dates) ∧
    (∀ n, get_months_since_first_subscription (resolvedTimeline subs) r = some n →
      0 ≤ n ∧
      ∃ q ∈ resolvedTimeline subs,
        q.sub_id = r.sub_id ∧ q.status = "active" ∧ q.dates ≤ r.dates ∧
        (∀ p ∈ resolvedTimeline subs,
          p.sub_id = r.sub_id → p.status = "active" → p.dates ≤ r.dates →
            q.dates ≤ p.dates) ∧
        n = (r.dates : Int) - (q.dates : Int)) ∧
    (r.status = "active" →
      (∀ p ∈ resolvedTimeline subs,
        p.sub_id = r.sub_id → p.status = "active" → r.dates ≤ p.dates) →
      get_months_since_first_subscription (resolvedTimeline subs) r = some 0) := by
  refine ⟨?_, ?_, ?_⟩
  · rw [msfs_eq, Option.map_eq_none']
    rw [List.min?_eq_none_iff, List.map_eq_nil_iff, List.filter_eq_nil_iff]
    constructor
    · rintro h ⟨q, hq, h1, h2, h3⟩
      exact h q hq (by simp [h1, h2, h3])
    · intro h q hq hp
      simp only [Bool.and_eq_true, beq_iff_eq, decide_eq_true_eq] at hp
      exact h ⟨q, hq, hp.1.1, hp.1.2, hp.2⟩
  · intro n hn
    rw [msfs_eq, Option.map_eq_some'] at hn
    obtain ⟨f, hf, hfn⟩ := hn
    obtain ⟨hmem, hall⟩ := List.min?_eq_some_iff'.mp hf
    rw [List.mem_map] at hmem
    obtain ⟨q, hq, hqd⟩ := hmem
    rw [List.mem_filter] at hq
    have hp := hq.2
    simp only [Bool.and_eq_true, beq_iff_eq, decide_eq_true_eq] at hp
    constructor
    · rw [← hfn]
      have : f ≤ r.dates := hqd ▸ hp.2
      omega
    · refine ⟨q, hq.1, hp.1.1, hp.1.2, hp.2, ?_, by rw [← hfn, hqd]⟩
      intro p hpm hps hpa hpd
      have hpL : p.dates ∈ ((resolvedTimeline subs).filter (fun q =>
          q.sub_id == r.sub_id && q.status == "active" &&
            decide (q.dates ≤ r.dates))).map (fun q => q.dates) := by
        rw [List.mem_map]
        exact ⟨p, List.mem_filter.mpr ⟨hpm, by simp [hps, hpa, hpd]⟩, rfl⟩
      rw [hqd]
      exact hall _ hpL
  · intro hact hmin
    rw [msfs_eq]
    have hrL : r.dates ∈ ((resolvedTimeline subs).filter (fun q =>
        q.sub_id == r.sub_id && q.status == "active" &&
          decide (q.dates ≤ r.dates))).map (fun q => q.dates) := by
      rw [List.mem_map]
      exact ⟨r, List.mem_filter.mpr ⟨hr, by simp [hact]⟩, rfl⟩
    have hminL : ∀ b ∈ ((resolvedTimeline subs).filter (fun q =>
        q.sub_id == r.sub_id && q.status == "active" &&
          decide (q.dates ≤ r.dates))).map (fun q => q.dates), r.dates ≤ b := by
      intro b hb
      rw [List.mem_map] at hb
      obtain ⟨p, hpf, hpd⟩ := hb
      rw [List.mem_filter] at hpf
      have hp := hpf.2
      simp only [Bool.and_eq_true, beq_iff_eq, decide_eq_true_eq] at hp
      exact hpd ▸ hmin p hpf.1 hp.1.1 hp.1.2
    rw [List.min?_eq_some_iff'.mpr ⟨hrL, hminL⟩]
    simp

/-- C5 witness: subscriber 4's single active month 20 is its own first active
month, with tenure 0. -/
theorem c5_witness :
    get_months_since_first_subscription (resolvedTimeline [⟨4, "active", 20⟩])
      ⟨4, "active", 20, false⟩ = some 0 :=
  (c5_months_since_first_subscription [⟨4, "active", 20⟩]
      ⟨4, "active", 20, false⟩ (by decide)).2.2 rfl (by decide)

/-- C6: months_since_status_change is the calendar-month difference to the
maximum month among the subscriber's resolved rows with month strictly earlier
and status different from the current row's; null when no such row exists and
strictly positive otherwise. -/
theorem c6_months_since_status_change (subs : List SubRow) (r : DedupRow)
    (hr : r ∈ resolvedTimeline subs) :
    (get_months_since_status_change (resolvedTimeline subs) r = none ↔
      ¬ ∃ q ∈ resolvedTimeline subs,
        q.sub_id = r.sub_id ∧ q.dates < r.dates ∧ q.status ≠ r.status) ∧
    (∀ n, get_months_since_status_change (resolvedTimeline subs) r = some n →
      0 < n ∧
      ∃ q ∈ resolvedTimeline subs,
        q.sub_id = r.sub_id ∧ q.dates < r.dates ∧ q.status ≠ r.status ∧
        (∀ p ∈ resolvedTimeline subs,
          p.sub_id = r.sub_id → p.dates < r.dates → p.status ≠ r.status →
            p.dates ≤ q.dates) ∧
        n = (r.dates : Int) - (q.dates : Int)) := by
  constructor
  · rw [mssc_eq, Option.map_eq_none']
    rw [List.max?_eq_none_iff, List.map_eq_nil_iff, List.filter_eq_nil_iff]
    constructor
    · rintro h ⟨q, hq, h1, h2, h3⟩
      exact h q hq (by simp [h1, h2, h3])
    · intro h q hq hp
      simp only [Bool.and_eq_true, beq_iff_eq, decide_eq_true_eq,
        bne_iff_ne, ne_eq] at hp
      exact h ⟨q, hq, hp.1.1, hp.1.2, hp.2⟩
  · intro n hn
    rw [mssc_eq, Option.map_eq_some'] at hn
    obtain ⟨c, hc, hcn⟩ := hn
    obtain ⟨hmem, hall⟩ := List.max?_eq_some_iff'.mp hc
    rw [List.mem_map] at hmem
    obtain ⟨q, hq, hqd⟩ := hmem
    rw [List.mem_filter] at hq
    have hp := hq.2
    simp only [Bool.and_eq_true, beq_iff_eq, decide_eq_true_eq,
      bne_iff_ne, ne_eq] at hp
    constructor
    · rw [← hcn]
      have : c < r.dates := hqd ▸ hp.1.2
      omega
    · refine ⟨q, hq.1, hp.1.1, hp.1.2, hp.2, ?_, by rw [← hcn, hqd]⟩
      intro p hpm hps hpd hpne
      have hpL : p.dates ∈ ((resolvedTimeline subs).filter (fun q =>
          q.sub_id == r.sub_id && decide (q.dates < r.dates) &&
            q.status != r.status)).map (fun q => q.dates) := by
        rw [List.mem_map]
        refine ⟨p, List.mem_filter.mpr ⟨hpm, ?_⟩, rfl⟩
        simp only [Bool.and_eq_true, beq_iff_eq, decide_eq_true_eq,
          bne_iff_ne, ne_eq]
        exact ⟨⟨hps, hpd⟩, hpne⟩
      rw [hqd]
      exact hall _ hpL

/-- C6 witness: subscriber 5 flips from active (month 30) to canceled
(month 31): the canceled row is 1 month after its last status change, with the
month-30 row as the change source. -/
theorem c6_witness :
    0 < (1 : Int) ∧
    ∃ q ∈ resolvedTimeline [⟨5, "active", 30⟩, ⟨5, "canceled", 31⟩],
      q.sub_id = 5 ∧ q.dates < 31 ∧ q.status ≠ "canceled" ∧
      (∀ p ∈ resolvedTimeline [⟨5, "active", 30⟩, ⟨5, "canceled", 31⟩],
        p.sub_id = 5 → p.dates < 31 → p.status ≠ "canceled" →
          p.dates ≤ q.dates) ∧
      (1 : Int) = (31 : Int) - (q.dates : Int) :=
  (c6_months_since_status_change [⟨5, "active", 30⟩, ⟨5, "canceled", 31⟩]
      ⟨5, "canceled", 31, false⟩ (by decide)).2 1 (by decide)

/-!
## Output ordering lemmas
-/

theorem keyLE_iff {a b : OutputRow} :
    keyLE a b = true ↔
      a.sub_id < b.sub_id ∨ (a.sub_id = b.sub_id ∧ a.dates ≤ b.dates) := by
  rw [keyLE]
  split
  case isTrue h => simp [h]
  case isFalse h =>
    split
    case isTrue h2 => simp; omega
    case isFalse h2 => simp; omega

theorem keyLE_total (a b : OutputRow) : keyLE a b = true ∨ keyLE b a = true := by
  rw [keyLE_iff, keyLE_iff]
  omega

theorem keyLE_trans {a b c : OutputRow}
    (h1 : keyLE a b = true) (h2 : keyLE b c = true) : keyLE a c = true := by
  rw [keyLE_iff] at h1 h2 ⊢
  omega

theorem insertSorted_perm (r : OutputRow) (l : List OutputRow) :
    (insertSorted r l).Perm (r :: l) := by
  induction l with
  | nil => exact List.Perm.refl _
  | cons a as ih =>
    rw [insertSorted]
    split
    case isTrue => exact List.Perm.refl _
    case isFalse =>
      exact ((ih.cons a).trans (List.Perm.swap r a as))

theorem sortOutput_perm (l : List OutputRow) : (sortOutput l).Perm l := by
  induction l with
  | nil => exact List.Perm.refl _
  | cons a as ih =>
    rw [sortOutput, List.foldr_cons]
    exact ((insertSorted_perm a _).trans (ih.cons a))

theorem mem_sortOutput_iff {l : List OutputRow} {o : OutputRow} :
    o ∈ sortOutput l ↔ o ∈ l :=
  (sortOutput_perm l).mem_iff

theorem insertSorted_sorted {r : OutputRow} {l : List OutputRow}
    (h : l.Pairwise (fun a b => keyLE a b = true)) :
    (insertSorted r l).Pairwise (fun a b => keyLE a b = true) := by
  induction l with
  | nil => exact List.pairwise_singleton _ r
  | cons a as ih =>
    rw [insertSorted]
    rw [List.pairwise_cons] at h
    split
    case isTrue hra =>
      refine List.Pairwise.cons ?_ (List.Pairwise.cons h.1 h.2)
      intro b hb
      rcases List.mem_cons.mp hb with hb | hb
      · exact hb ▸ hra
      · exact keyLE_trans hra (h.1 b hb)
    case isFalse hra =>
      refine List.Pairwise.cons ?_ (ih h.2)
      intro b hb
      have hb' := (insertSorted_perm r as).mem_iff.mp hb
      rcases List.mem_cons.mp hb' with hb' | hb'
      · subst hb'
        rcases keyLE_total a b with h' | h'
        · exact h'
        · exact absurd h' hra
      · exact h.1 b hb'

theorem sortOutput_sorted (l : List OutputRow) :
    (sortOutput l).Pairwise (fun a b => keyLE a b = true) := by
  induction l with
  | nil => exact List.Pairwise.nil
  | cons a as ih =>
    rw [sortOutput, List.foldr_cons]
    exact insertSorted_sorted ih

/-!
## Booking Aggregator / Joiner lemmas and Claim C7
-/

/-- Each `bookings_per_month` row counts exactly the confirmed bookings of its
own `(subscriber, month)` key, and comes from at least one such booking. -/
theorem mem_monthly_bookings {books : List BookingRow} {b : BookingCount}
    (h : b ∈ get_monthly_bookings books) :
    b.confirmed_bookings = confirmedCount books b.sub_id b.dates ∧
      1 ≤ confirmedCount books b.sub_id b.dates := by
  rw [get_monthly_bookings, List.mem_map] at h
  obtain ⟨k, hk, hbk⟩ := h
  rw [List.mem_dedup, List.mem_map] at hk
  obtain ⟨bk, hbkm, hbkk⟩ := hk
  rw [List.mem_filter] at hbkm
  have hcnt : (books.filter (fun b => b.booking_status == "Confirmed")).countP
      (fun b => timestamp_to_month b.booking_date == k.1 && b.subscriber_id == k.2) =
      confirmedCount books k.2 k.1 := by
    rw [List.countP_filter, confirmedCount]
    refine List.countP_congr ?_
    intro a ha
    cases h1 : (a.subscriber_id == k.2) <;>
      cases h2 : (a.booking_status == "Confirmed") <;>
        cases h3 : (timestamp_to_month a.booking_date == k.1) <;> simp [h1, h2, h3]
  subst hbk
  refine ⟨hcnt, ?_⟩
  rw [show (⟨k.1, k.2, (books.filter (fun b => b.booking_status == "Confirmed")).countP
      (fun b => timestamp_to_month b.booking_date == k.1 && b.subscriber_id == k.2)⟩ :
        BookingCount).sub_id = k.2 from rfl]
  rw [show (⟨k.1, k.2, (books.filter (fun b => b.booking_status == "Confirmed")).countP
      (fun b => timestamp_to_month b.booking_date == k.1 && b.subscriber_id == k.2)⟩ :
        BookingCount).dates = k.1 from rfl]
  rw [← hcnt]
  refine countP_pos_iff.mpr ⟨bk, List.mem_filter.mpr hbkm, ?_⟩
  rw [← hbkk]
  simp

/-- The left join on `(sub_id, dates)` with zero fill recovers exactly the
confirmed-booking count of the key, absent keys included. -/
theorem join_confirmed (books : List BookingRow) (s m : Nat) :
    (match (get_monthly_bookings books).find?
        (fun b => b.sub_id == s && b.dates == m) with
     | some b => b.confirmed_bookings
     | none => 0) = confirmedCount books s m := by
  match hf : (get_monthly_bookings books).find? (fun b => b.sub_id == s && b.dates == m) with
  | some b =>
    rw [hf]
    show b.confirmed_bookings = confirmedCount books s m
    have hp := List.find?_some hf
    simp only [Bool.and_eq_true, beq_iff_eq] at hp
    have hmb := (mem_monthly_bookings (List.mem_of_find?_eq_some hf)).1
    rw [hmb, hp.1, hp.2]
  | none =>
    rw [hf]
    show (0 : Nat) = confirmedCount books s m
    rw [List.find?_eq_none] at hf
    symm
    rw [confirmedCount, List.countP_eq_zero]
    intro bk hbk hbkp
    simp only [Bool.and_eq_true, beq_iff_eq] at hbkp
    have hkmem : ((m, s) : Nat × Nat) ∈
        ((books.filter (fun b => b.booking_status == "Confirmed")).map
          (fun b => (timestamp_to_month b.booking_date, b.subscriber_id))).dedup := by
      rw [List.mem_dedup, List.mem_map]
      exact ⟨bk, List.mem_filter.mpr ⟨hbk, by simp [hbkp.1.2]⟩,
        by rw [hbkp.2, hbkp.1.1]⟩
    have hrow : (⟨m, s, (books.filter (fun b => b.booking_status == "Confirmed")).countP
        (fun b => timestamp_to_month b.booking_date == m && b.subscriber_id == s)⟩ :
          BookingCount) ∈ get_monthly_bookings books := by
      rw [get_monthly_bookings, List.mem_map]
      exact ⟨(m, s), hkmem, rfl⟩
    exact hf _ hrow (by simp)

/-- C7: every output row's confirmed_bookings equals the number of that
subscriber's `'Confirmed'` booking events falling in that calendar month
(0 when there are none, including subscribers without booking events); every
resolved-timeline row yields such an output row; and the output is sorted
ascending by `(sub_id, dates)`.  The internal `invalid_status` flag is
structurally absent from `OutputRow`. -/
theorem c7_confirmed_bookings_join (subs : List SubRow) (books : List BookingRow) :
    (∀ o ∈ mainPipe subs books,
      o.confirmed_bookings = confirmedCount books o.sub_id o.dates ∧
      ((¬ ∃ bk ∈ books, bk.subscriber_id = o.sub_id ∧
          bk.booking_status = "Confirmed" ∧
          timestamp_to_month bk.booking_date = o.dates) →
        o.confirmed_bookings = 0)) ∧
    (∀ r ∈ resolvedTimeline subs, ∃ o ∈ mainPipe subs books,
      o.sub_id = r.sub_id ∧ o.dates = r.dates ∧
      o.confirmed_bookings = confirmedCount books r.sub_id r.dates) ∧
    (mainPipe subs books).Pairwise (fun a b => keyLE a b = true) := by
  have henrich : ∀ r, (enrichRow (resolvedTimeline subs)
      (get_monthly_bookings books) r).confirmed_bookings =
        confirmedCount books r.sub_id r.dates := by
    intro r
    rw [enrichRow]
    exact join_confirmed books r.sub_id r.dates
  refine ⟨?_, ?_, sortOutput_sorted _⟩
  · intro o ho
    rw [mainPipe, save_to_csv, mem_sortOutput_iff, List.mem_map] at ho
    obtain ⟨r, hr, heq⟩ := ho
    have hsub : o.sub_id = r.sub_id := by rw [← heq]; rfl
    have hdat : o.dates = r.dates := by rw [← heq]; rfl
    have hcb : o.confirmed_bookings = confirmedCount books o.sub_id o.dates := by
      rw [← heq]
      exact henrich r
    refine ⟨hcb, ?_⟩
    intro hno
    rw [hcb]
    rw [confirmedCount, List.countP_eq_zero]
    intro bk hbk hbkp
    simp only [Bool.and_eq_true, beq_iff_eq] at hbkp
    exact hno ⟨bk, hbk, hbkp.1.1, hbkp.1.2, hbkp.2⟩
  · intro r hr
    refine ⟨enrichRow (resolvedTimeline subs) (get_monthly_bookings books) r,
      ?_, rfl, rfl, henrich r⟩
    rw [mainPipe, save_to_csv, mem_sortOutput_iff, List.mem_map]
    exact ⟨r, hr, rfl⟩

/-- C7 witness: subscriber 7 at month 50 with one Confirmed and one Rejected
booking in month 50 gets confirmed_bookings = 1 in its output row. -/
theorem c7_witness :
    ∃ o ∈ mainPipe [⟨7, "active", 50⟩]
        [⟨7, ⟨50, 12⟩, "Confirmed"⟩, ⟨7, ⟨50, 13⟩, "Rejected"⟩],
      o.sub_id = 7 ∧ o.dates = 50 ∧
      o.confirmed_bookings =
        confirmedCount [⟨7, ⟨50, 12⟩, "Confirmed"⟩, ⟨7, ⟨50, 13⟩, "Rejected"⟩] 7 50 :=
  (c7_confirmed_bookings_join [⟨7, "active", 50⟩]
      [⟨7, ⟨50, 12⟩, "Confirmed"⟩, ⟨7, ⟨50, 13⟩, "Rejected"⟩]).2.1
    ⟨7, "active", 50, false⟩ (by decide)

/-!
## Claim C10: statuses outside {active, canceled}
-/

theorem countP_disjoint_add {α : Type} (p q : α → Bool) (l : List α)
    (h : ∀ a ∈ l, ¬(p a = true ∧ q a = true)) :
    l.countP p + l.countP q = l.countP (fun a => p a || q a) := by
  induction l with
  | nil => simp
  | cons a as ih =>
    rw [List.countP_cons, List.countP_cons, List.countP_cons]
    have ha := h a (List.mem_cons_self a as)
    have ih' := ih (fun b hb => h b (List.mem_cons_of_mem a hb))
    cases hp : p a <;> cases hq : q a <;>
      simp only [hp, hq] at ha ⊢ <;> simp at ha ⊢ <;> omega

theorem filter_erase_of_not {l : List DedupRow} {v : DedupRow}
    {p : DedupRow → Bool} (hv : p v = false) :
    (l.erase v).filter p = l.filter p := by
  induction l with
  | nil => rfl
  | cons a as ih =>
    by_cases hav : a = v
    · subst hav
      rw [List.erase_cons_head]
      rw [List.filter_cons_of_neg (by rw [hv]; exact Bool.false_ne_true)]
    · rw [List.erase_cons_tail (by simp [hav])]
      rw [List.filter_cons, List.filter_cons, ih]

/-- C10: a valid row whose status is neither 'active' nor 'canceled' is not
rejected: it survives resolution verbatim, reaches the output with its status,
is counted by neither active_months nor canceled_months (their sum stays
strictly below the row count up to that month), and is invisible to
months_since_first_subscription (erasing it changes no tenure value). -/
theorem c10_other_status_rows (subs : List SubRow) (books : List BookingRow)
    (r0 : SubRow) (hr0 : r0 ∈ subs) (hu : rawCount subs r0.sub_id r0.dates = 1)
    (hna : r0.status ≠ "active") (hnc : r0.status ≠ "canceled") :
    (⟨r0.sub_id, r0.status, r0.dates, false⟩ : DedupRow) ∈ resolvedTimeline subs ∧
    (∃ o ∈ mainPipe subs books,
      o.sub_id = r0.sub_id ∧ o.dates = r0.dates ∧ o.status = r0.status) ∧
    (get_status_counts (resolvedTimeline subs)
        ⟨r0.sub_id, r0.status, r0.dates, false⟩).1 +
      (get_status_counts (resolvedTimeline subs)
        ⟨r0.sub_id, r0.status, r0.dates, false⟩).2 <
      ((resolvedTimeline subs).filter (fun q =>
        q.sub_id == r0.sub_id && decide (q.dates ≤ r0.dates))).length ∧
    (∀ q, get_months_since_first_subscription (resolvedTimeline subs) q =
      get_months_since_first_subscription
        ((resolvedTimeline subs).erase ⟨r0.sub_id, r0.status, r0.dates, false⟩) q) := by
  have hvs : validStatus subs r0.sub_id r0.dates = some r0.status := by
    rw [validStatus, if_pos hu,
      find?_eq_of_countP_eq_one hu hr0 (by simp [sameKey])]
    rfl
  have hvN : (⟨r0.sub_id, r0.status, r0.dates, false⟩ : DedupRow) ∈
      normalizedTimeline subs := validStatus_mem_timeline hvs
  have hvR : (⟨r0.sub_id, r0.status, r0.dates, false⟩ : DedupRow) ∈
      resolvedTimeline subs := by
    rw [resolvedTimeline, updated_statuses, List.mem_map]
    refine ⟨⟨r0.sub_id, r0.status, r0.dates, false⟩, hvN, ?_⟩
    rw [glvs_valid rfl]
  refine ⟨hvR, ?_, ?_, ?_⟩
  · refine ⟨enrichRow (resolvedTimeline subs) (get_monthly_bookings books)
      ⟨r0.sub_id, r0.status, r0.dates, false⟩, ?_, rfl, rfl, rfl⟩
    rw [mainPipe, save_to_csv, mem_sortOutput_iff, List.mem_map]
    exact ⟨⟨r0.sub_id, r0.status, r0.dates, false⟩, hvR, rfl⟩
  · simp only [get_status_counts]
    rw [← List.countP_eq_length_filter, ← List.countP_eq_length_filter]
    rw [countP_disjoint_add _ _ _ (by
      intro a ha hand
      simp only [beq_iff_eq] at hand
      rw [hand.2] at hand
      exact absurd hand.1 (by decide))]
    have hvupto : (⟨r0.sub_id, r0.status, r0.dates, false⟩ : DedupRow) ∈
        (resolvedTimeline subs).filter (fun q =>
          q.sub_id == r0.sub_id && decide (q.dates ≤ r0.dates)) :=
      List.mem_filter.mpr ⟨hvR, by simp⟩
    rw [List.countP_eq_length_filter]
    refine List.length_filter_lt_length_iff_exists.mpr
      ⟨⟨r0.sub_id, r0.status, r0.dates, false⟩, hvupto, ?_⟩
    simp only [Bool.or_eq_true, beq_iff_eq]
    push_neg
    exact ⟨hna, hnc⟩
  · intro q
    rw [msfs_eq, msfs_eq]
    rw [filter_erase_of_not (by simp [hna])]

/-- C10 witness: subscriber 6 has a valid "paused" month 40 followed by an
active month 41; the paused row flows through to the output untouched, counts
in neither bucket, and does not start the tenure clock. -/
theorem c10_witness :
    (⟨6, "paused", 40, false⟩ : DedupRow) ∈
      resolvedTimeline [⟨6, "paused", 40⟩, ⟨6, "active", 41⟩] ∧
    (∃ o ∈ mainPipe [⟨6, "paused", 40⟩, ⟨6, "active", 41⟩] [],
      o.sub_id = 6 ∧ o.dates = 40 ∧ o.status = "paused") ∧
    (get_status_counts (resolvedTimeline [⟨6, "paused", 40⟩, ⟨6, "active", 41⟩])
        ⟨6, "paused", 40, false⟩).1 +
      (get_status_counts (resolvedTimeline [⟨6, "paused", 40⟩, ⟨6, "active", 41⟩])
        ⟨6, "paused", 40, false⟩).2 <
      ((resolvedTimeline [⟨6, "paused", 40⟩, ⟨6, "active", 41⟩]).filter (fun q =>
        q.sub_id == 6 && decide (q.dates ≤ 40))).length ∧
    get_months_since_first_subscription
        (resolvedTimeline [⟨6, "paused", 40⟩, ⟨6, "active", 41⟩])
        ⟨6, "paused", 40, false⟩ =
      get_months_since_first_subscription
        ((resolvedTimeline [⟨6, "paused", 40⟩, ⟨6, "active", 41⟩]).erase
          ⟨6, "paused", 40, false⟩)
        ⟨6, "paused", 40, false⟩ := by
  obtain ⟨h1, h2, h3, h4⟩ := c10_other_status_rows
    [⟨6, "paused", 40⟩, ⟨6, "active", 41⟩] [] ⟨6, "paused", 40⟩
    (by decide) (by decide) (by decide) (by decide)
  exact ⟨h1, h2, h3, h4 ⟨6, "paused", 40, false⟩⟩

/-!
## Claim C3: resolution from the original valid-row set, order-independence
-/

theorem keyNodup_eq {l : List DedupRow} (h : keyNodup l) {a b : DedupRow}
    (ha : a ∈ l) (hb : b ∈ l) (hk : dkey a = dkey b) : a = b := by
  by_contra hne
  exact (h.forall (fun x y hxy => (hxy ∘ Eq.symm)) ha hb hne) hk

theorem rawCount_perm {subs₁ subs₂ : List SubRow} (hp : subs₁.Perm subs₂)
    (s m : Nat) : rawCount subs₁ s m = rawCount subs₂ s m :=
  hp.countP_eq _

theorem validStatus_perm {subs₁ subs₂ : List SubRow} (hp : subs₁.Perm subs₂)
    (s m : Nat) : validStatus subs₁ s m = validStatus subs₂ s m := by
  rw [validStatus, validStatus, rawCount_perm hp]
  split
  case isFalse => rfl
  case isTrue hone =>
    have hone₁ : rawCount subs₁ s m = 1 := by rw [rawCount_perm hp]; exact hone
    obtain ⟨x, hx, hpx⟩ := countP_pos_iff.mp (le_of_eq hone₁.symm)
    rw [find?_eq_of_countP_eq_one hone₁ hx hpx,
      find?_eq_of_countP_eq_one hone (hp.mem_iff.mp hx) hpx]

theorem subRawDates_min?_perm {subs₁ subs₂ : List SubRow} (hp : subs₁.Perm subs₂)
    (s : Nat) : (subRawDates subs₁ s).min? = (subRawDates subs₂ s).min? :=
  min?_congr_mem (fun x => ((hp.filter _).map _).mem_iff)

theorem subRawDates_max?_perm {subs₁ subs₂ : List SubRow} (hp : subs₁.Perm subs₂)
    (s : Nat) : (subRawDates subs₁ s).max? = (subRawDates subs₂ s).max? :=
  max?_congr_mem (fun x => ((hp.filter _).map _).mem_iff)

/-- The flag of a timeline row records that its raw key count differs from 1
(0 for synthetic gap rows, ≥ 2 for duplicates). -/
theorem timeline_flag {subs : List SubRow} {r : DedupRow}
    (h : r ∈ normalizedTimeline subs) :
    r.invalid_status = decide (rawCount subs r.sub_id r.dates ≠ 1) := by
  obtain ⟨s, hs, lo, hi, hlo, hhi, m, h1, h2, heq⟩ := mem_fill_elim h
  have hsub : r.sub_id = s := heq ▸ gridRow_sub_id _ s m
  have hdat : r.dates = m := heq ▸ gridRow_dates _ s m
  rw [hsub, hdat]
  rw [gridRow] at heq
  split at heq
  case h_1 q hq =>
    have hqmem : q ∈ deduplicate_subscriptions subs := List.mem_of_find?_eq_some hq
    have hqp := List.find?_some hq
    simp only [Bool.and_eq_true, beq_iff_eq] at hqp
    have hflag := dedup_flag hqmem
    have hpos : 1 ≤ rawCount subs s m :=
      dedup_key_iff.mp ⟨q, hqmem, by rw [dkey, hqp.1, hqp.2]⟩
    rw [heq, hflag, hqp.1, hqp.2]
    rcases Nat.lt_or_ge (rawCount subs s m) 2 with hc | hc
    · have : rawCount subs s m = 1 := by omega
      simp [this]
    · have : rawCount subs s m ≠ 1 := by omega
      simp [hc, this]
  case h_2 hq =>
    have hnone : ¬ ∃ q ∈ deduplicate_subscriptions subs, dkey q = (s, m) := by
      rintro ⟨q, hqm, hqk⟩
      rw [List.find?_eq_none] at hq
      rw [dkey, Prod.mk.injEq] at hqk
      exact hq q hqm (by simp [hqk.1, hqk.2])
    have hzero : rawCount subs s m = 0 := by
      rcases Nat.eq_zero_or_pos (rawCount subs s m) with h0 | hpos
      · exact h0
      · exact absurd (dedup_key_iff.mpr hpos) hnone
    rw [heq]
    simp [hzero]

/-- A key occurs in the normalized timeline iff it lies in the subscriber's
observed min-max month range. -/
theorem timeline_key_iff {subs : List SubRow} {s m : Nat} :
    (∃ r ∈ normalizedTimeline subs, r.sub_id = s ∧ r.dates = m) ↔
      ∃ lo hi, (subRawDates subs s).min? = some lo ∧
        (subRawDates subs s).max? = some hi ∧ lo ≤ m ∧ m ≤ hi := by
  have hsets : ∀ x, x ∈ subDates (deduplicate_subscriptions subs) s ↔
      x ∈ subRawDates subs s := fun x => subDates_dedup_iff
  constructor
  · rintro ⟨r, hr, hrs, hrd⟩
    obtain ⟨s', hs', lo, hi, hlo, hhi, m', h1, h2, heq⟩ := mem_fill_elim hr
    have hsub : r.sub_id = s' := heq ▸ gridRow_sub_id _ s' m'
    have hdat : r.dates = m' := heq ▸ gridRow_dates _ s' m'
    refine ⟨lo, hi, ?_, ?_, ?_, ?_⟩
    · rw [← min?_congr_mem hsets, ← hrs, hsub]
      exact hlo
    · rw [← max?_congr_mem hsets, ← hrs, hsub]
      exact hhi
    · omega
    · omega
  · rintro ⟨lo, hi, hlo, hhi, h1, h2⟩
    have hlo' : (subDates (deduplicate_subscriptions subs) s).min? = some lo := by
      rw [min?_congr_mem hsets]
      exact hlo
    have hhi' : (subDates (deduplicate_subscriptions subs) s).max? = some hi := by
      rw [max?_congr_mem hsets]
      exact hhi
    have hs : s ∈ subsOf (deduplicate_subscriptions subs) := by
      have hmem : lo ∈ subDates (deduplicate_subscriptions subs) s :=
        (List.min?_eq_some_iff'.mp hlo').1
      obtain ⟨r, hr, hk⟩ := mem_subDates_iff.mp hmem
      exact mem_subsOf_iff.mpr ⟨r, hr, hk.1⟩
    exact ⟨gridRow (deduplicate_subscriptions subs) s m,
      gridRow_mem_fill hs hlo' hhi' h1 h2, gridRow_sub_id _ s m, gridRow_dates _ s m⟩

/-- Membership in a valid-row window filter of the normalized timeline,
reduced to the raw input's `validStatus` map. -/
theorem mem_validFilter_iff {subs : List SubRow} {s : Nat} {φ : DedupRow → Bool}
    {q : DedupRow} :
    q ∈ (normalizedTimeline subs).filter (fun x =>
        x.sub_id == s && φ x && x.invalid_status == false) ↔
      (q.sub_id = s ∧ φ q = true ∧ q.invalid_status = false ∧
        validStatus subs s q.dates = some q.status) := by
  rw [List.mem_filter]
  constructor
  · rintro ⟨hm, hpred⟩
    simp only [Bool.and_eq_true, beq_iff_eq] at hpred
    obtain ⟨⟨h1, h2⟩, h3⟩ := hpred
    refine ⟨h1, h2, h3, ?_⟩
    rw [← h1]
    exact timeline_valid_validStatus hm h3
  · rintro ⟨h1, h2, h3, h4⟩
    have hmem := validStatus_mem_timeline h4
    have heta : (⟨s, q.status, q.dates, false⟩ : DedupRow) = q := by
      rw [← h1, ← h3]
    exact ⟨heta ▸ hmem, by simp [h1, h2, h3]⟩

theorem latestBy_congr {l₁ l₂ : List DedupRow}
    (hmem : ∀ q, q ∈ l₁ ↔ q ∈ l₂)
    (huniq : ∀ a ∈ l₁, ∀ b ∈ l₁, a.dates = b.dates → a = b) :
    latestBy l₁ = latestBy l₂ := by
  rcases latestBy_spec l₁ with ⟨h1, e1⟩ | ⟨q₁, e1, m1, b1⟩
  · rcases latestBy_spec l₂ with ⟨h2, e2⟩ | ⟨q₂, e2, m2, b2⟩
    · rw [e1, e2]
    · have h3 : q₂ ∈ l₁ := (hmem q₂).mpr m2
      rw [h1] at h3
      exact absurd h3 (List.not_mem_nil _)
  · rcases latestBy_spec l₂ with ⟨h2, e2⟩ | ⟨q₂, e2, m2, b2⟩
    · have h3 : q₁ ∈ l₂ := (hmem q₁).mp m1
      rw [h2] at h3
      exact absurd h3 (List.not_mem_nil _)
    · have hq₂₁ : q₂ ∈ l₁ := (hmem q₂).mpr m2
      have hq₁₂ : q₁ ∈ l₂ := (hmem q₁).mp m1
      have hd : q₁.dates = q₂.dates := Nat.le_antisymm (b2 q₁ hq₁₂) (b1 q₂ hq₂₁)
      rw [e1, e2, huniq q₁ m1 q₂ hq₂₁ hd]

theorem earliestBy_congr {l₁ l₂ : List DedupRow}
    (hmem : ∀ q, q ∈ l₁ ↔ q ∈ l₂)
    (huniq : ∀ a ∈ l₁, ∀ b ∈ l₁, a.dates = b.dates → a = b) :
    earliestBy l₁ = earliestBy l₂ := by
  rcases earliestBy_spec l₁ with ⟨h1, e1⟩ | ⟨q₁, e1, m1, b1⟩
  · rcases earliestBy_spec l₂ with ⟨h2, e2⟩ | ⟨q₂, e2, m2, b2⟩
    · rw [e1, e2]
    · have h3 : q₂ ∈ l₁ := (hmem q₂).mpr m2
      rw [h1] at h3
      exact absurd h3 (List.not_mem_nil _)
  · rcases earliestBy_spec l₂ with ⟨h2, e2⟩ | ⟨q₂, e2, m2, b2⟩
    · have h3 : q₁ ∈ l₂ := (hmem q₁).mp m1
      rw [h2] at h3
      exact absurd h3 (List.not_mem_nil _)
    · have hq₂₁ : q₂ ∈ l₁ := (hmem q₂).mpr m2
      have hq₁₂ : q₁ ∈ l₂ := (hmem q₁).mp m1
      have hd : q₁.dates = q₂.dates := Nat.le_antisymm (b1 q₂ hq₂₁) (b2 q₁ hq₁₂)
      rw [e1, e2, huniq q₁ m1 q₂ hq₂₁ hd]

/-- Two same-subscriber, same-date rows of a valid-window filter coincide. -/
theorem validFilter_uniq {subs : List SubRow} {s : Nat} {φ : DedupRow → Bool} :
    ∀ a ∈ (normalizedTimeline subs).filter (fun x =>
        x.sub_id == s && φ x && x.invalid_status == false),
      ∀ b ∈ (normalizedTimeline subs).filter (fun x =>
        x.sub_id == s && φ x && x.invalid_status == false),
        a.dates = b.dates → a = b := by
  intro a ha b hb hd
  have ha' := mem_validFilter_iff.mp ha
  have hb' := mem_validFilter_iff.mp hb
  exact keyNodup_eq (fill_keyNodup _) (List.mem_of_mem_filter ha)
    (List.mem_of_mem_filter hb) (by rw [dkey, dkey, ha'.1, hb'.1, hd])

/-- The resolver's result at a key is invariant under permutation of the raw
input rows. -/
theorem glvs_perm {subs₁ subs₂ : List SubRow} (hp : subs₁.Perm subs₂)
    {r₁ r₂ : DedupRow} (h₁ : r₁ ∈ normalizedTimeline subs₁)
    (h₂ : r₂ ∈ normalizedTimeline subs₂)
    (hs : r₁.sub_id = r₂.sub_id) (hd : r₁.dates = r₂.dates) :
    get_last_valid_status (normalizedTimeline subs₁) r₁ =
      get_last_valid_status (normalizedTimeline subs₂) r₂ := by
  have hflag : r₁.invalid_status = r₂.invalid_status := by
    rw [timeline_flag h₁, timeline_flag h₂, hs, hd, rawCount_perm hp]
  have hmemP : ∀ q, q ∈ (normalizedTimeline subs₁).filter (fun x =>
      x.sub_id == r₁.sub_id && decide (x.dates < r₁.dates) &&
        x.invalid_status == false) ↔
      q ∈ (normalizedTimeline subs₂).filter (fun x =>
      x.sub_id == r₂.sub_id && decide (x.dates < r₂.dates) &&
        x.invalid_status == false) := by
    intro q
    rw [mem_validFilter_iff, mem_validFilter_iff, hs, hd, validStatus_perm hp]
  have hmemN : ∀ q, q ∈ (normalizedTimeline subs₁).filter (fun x =>
      x.sub_id == r₁.sub_id && decide (r₁.dates < x.dates) &&
        x.invalid_status == false) ↔
      q ∈ (normalizedTimeline subs₂).filter (fun x =>
      x.sub_id == r₂.sub_id && decide (r₂.dates < x.dates) &&
        x.invalid_status == false) := by
    intro q
    rw [mem_validFilter_iff, mem_validFilter_iff, hs, hd, validStatus_perm hp]
  have hPeq : latestBy ((normalizedTimeline subs₁).filter (fun x =>
      x.sub_id == r₁.sub_id && decide (x.dates < r₁.dates) &&
        x.invalid_status == false)) =
      latestBy ((normalizedTimeline subs₂).filter (fun x =>
      x.sub_id == r₂.sub_id && decide (x.dates < r₂.dates) &&
        x.invalid_status == false)) :=
    latestBy_congr hmemP validFilter_uniq
  have hNeq : earliestBy ((normalizedTimeline subs₁).filter (fun x =>
      x.sub_id == r₁.sub_id && decide (r₁.dates < x.dates) &&
        x.invalid_status == false)) =
      earliestBy ((normalizedTimeline subs₂).filter (fun x =>
      x.sub_id == r₂.sub_id && decide (r₂.dates < x.dates) &&
        x.invalid_status == false)) :=
    earliestBy_congr hmemN validFilter_uniq
  cases hv : r₁.invalid_status with
  | false =>
    have hv₂ : r₂.invalid_status = false := by rw [← hflag]; exact hv
    rw [glvs_valid hv, glvs_valid hv₂]
    have e₁ := timeline_valid_validStatus h₁ hv
    have e₂ := timeline_valid_validStatus h₂ hv₂
    rw [hs, hd, validStatus_perm hp, e₂] at e₁
    injection e₁ with e₁
    exact e₁.symm
  | true =>
    have hv₂ : r₂.invalid_status = true := by rw [← hflag]; exact hv
    match hL : latestBy ((normalizedTimeline subs₁).filter (fun x =>
        x.sub_id == r₁.sub_id && decide (x.dates < r₁.dates) &&
          x.invalid_status == false)) with
    | some q =>
      rw [glvs_prev hv hL, glvs_prev hv₂ (hPeq ▸ hL)]
    | none =>
      match hE : earliestBy ((normalizedTimeline subs₁).filter (fun x =>
          x.sub_id == r₁.sub_id && decide (r₁.dates < x.dates) &&
            x.invalid_status == false)) with
      | some q =>
        rw [glvs_next hv hL hE, glvs_next hv₂ (hPeq ▸ hL) (hNeq ▸ hE)]
      | none =>
        rw [glvs_canceled hv hL hE, glvs_canceled hv₂ (hPeq ▸ hL) (hNeq ▸ hE)]

theorem find?_congr {α : Type} {p q : α → Bool} (l : List α)
    (h : ∀ a, p a = q a) : l.find? p = l.find? q := by
  induction l with
  | nil => rfl
  | cons a as ih =>
    rw [List.find?_cons, List.find?_cons, h a]
    cases q a
    · exact ih
    · rfl

/-- The resolved status at a key is the resolver applied to the normalized
timeline's row at that key. -/
theorem statusAt_resolved (subs : List SubRow) (s m : Nat) :
    statusAt (resolvedTimeline subs) s m =
      ((normalizedTimeline subs).find? (fun r => r.sub_id == s && r.dates == m)).map
        (fun r => get_last_valid_status (normalizedTimeline subs) r) := by
  rw [statusAt, resolvedTimeline, updated_statuses, List.find?_map]
  rw [find?_congr (normalizedTimeline subs) (fun a => rfl), Option.map_map]
  rfl

/-- Rewriting flagged rows' statuses does not change any valid-window filter,
as long as the window predicate ignores the status column. -/
theorem alterRow_filter (rows : List DedupRow) (f : DedupRow → String)
    (s : Nat) (φ : DedupRow → Bool)
    (hφ : ∀ (q : DedupRow) (st : String), φ { q with status := st } = φ q) :
    (rows.map (fun q =>
      if q.invalid_status = true then { q with status := f q } else q)).filter
        (fun x => x.sub_id == s && φ x && x.invalid_status == false) =
    rows.filter (fun x => x.sub_id == s && φ x && x.invalid_status == false) := by
  rw [List.filter_map]
  have hpt : ∀ a ∈ rows,
      ((fun x => x.sub_id == s && φ x && x.invalid_status == false) ∘
        (fun q => if q.invalid_status = true then { q with status := f q } else q)) a =
      (fun x => x.sub_id == s && φ x && x.invalid_status == false) a := by
    intro a ha
    by_cases hflag : a.invalid_status = true
    · simp only [Function.comp_apply, if_pos hflag, hφ]
    · simp only [Function.comp_apply, if_neg hflag]
  rw [List.filter_congr hpt]
  have hid : ∀ a ∈ rows.filter
      (fun x => x.sub_id == s && φ x && x.invalid_status == false),
      (if a.invalid_status = true then { a with status := f a } else a) = a := by
    intro a ha
    have hv := (List.mem_filter.mp ha).2
    simp only [Bool.and_eq_true, beq_iff_eq] at hv
    rw [if_neg (by rw [hv.2]; exact Bool.false_ne_true)]
  exact (List.map_congr_left hid).trans (List.map_id _)

/-- The resolver never reads the status of any flagged row: rewriting all
flagged statuses arbitrarily before resolution leaves its result unchanged. -/
theorem glvs_alter (rows : List DedupRow) (f : DedupRow → String) (r : DedupRow) :
    get_last_valid_status
      (rows.map (fun q =>
        if q.invalid_status = true then { q with status := f q } else q)) r =
    get_last_valid_status rows r := by
  have hP : (rows.map (fun q =>
      if q.invalid_status = true then { q with status := f q } else q)).filter
        (fun x => x.sub_id == r.sub_id && decide (x.dates < r.dates) &&
          x.invalid_status == false) =
      rows.filter (fun x => x.sub_id == r.sub_id && decide (x.dates < r.dates) &&
          x.invalid_status == false) :=
    alterRow_filter rows f r.sub_id (fun x => decide (x.dates < r.dates))
      (fun q st => rfl)
  have hN : (rows.map (fun q =>
      if q.invalid_status = true then { q with status := f q } else q)).filter
        (fun x => x.sub_id == r.sub_id && decide (r.dates < x.dates) &&
          x.invalid_status == false) =
      rows.filter (fun x => x.sub_id == r.sub_id && decide (r.dates < x.dates) &&
          x.invalid_status == false) :=
    alterRow_filter rows f r.sub_id (fun x => decide (r.dates < x.dates))
      (fun q st => rfl)
  cases hv : r.invalid_status with
  | false => rw [glvs_valid hv, glvs_valid hv]
  | true =>
    match hL : latestBy (rows.filter (fun x =>
        x.sub_id == r.sub_id && decide (x.dates < r.dates) &&
          x.invalid_status == false)) with
    | some q =>
      rw [glvs_prev hv hL, glvs_prev hv (by rw [hP]; exact hL)]
    | none =>
      match hE : earliestBy (rows.filter (fun x =>
          x.sub_id == r.sub_id && decide (r.dates < x.dates) &&
            x.invalid_status == false)) with
      | some q =>
        rw [glvs_next hv hL hE,
          glvs_next hv (by rw [hP]; exact hL) (by rw [hN]; exact hE)]
      | none =>
        rw [glvs_canceled hv hL hE,
          glvs_canceled hv (by rw [hP]; exact hL) (by rw [hN]; exact hE)]

/-- C3: the resolved status of every `(subscriber, month)` key is a function
of the original valid-row set only: it is invariant under any permutation of
the raw input rows (in particular under swapping the two rows of a duplicated
key), and the resolver's result is unchanged when the statuses of flagged rows
are rewritten arbitrarily before resolution. -/
theorem c3_resolution_order_independent (subs₁ subs₂ : List SubRow)
    (hp : subs₁.Perm subs₂) (s m : Nat) :
    statusAt (resolvedTimeline subs₁) s m =
      statusAt (resolvedTimeline subs₂) s m ∧
    ∀ (f : DedupRow → String) (r : DedupRow),
      get_last_valid_status ((normalizedTimeline subs₁).map (fun q =>
        if q.invalid_status = true then { q with status := f q } else q)) r =
      get_last_valid_status (normalizedTimeline subs₁) r := by
  refine ⟨?_, fun f r => glvs_alter (normalizedTimeline subs₁) f r⟩
  rw [statusAt_resolved, statusAt_resolved]
  match hf₁ : (normalizedTimeline subs₁).find? (fun r => r.sub_id == s && r.dates == m),
        hf₂ : (normalizedTimeline subs₂).find? (fun r => r.sub_id == s && r.dates == m) with
  | some r₁, some r₂ =>
    have hp₁ := List.find?_some hf₁
    have hp₂ := List.find?_some hf₂
    simp only [Bool.and_eq_true, beq_iff_eq] at hp₁ hp₂
    rw [hf₁, hf₂, Option.map_some', Option.map_some']
    exact congrArg some (glvs_perm hp (List.mem_of_find?_eq_some hf₁)
      (List.mem_of_find?_eq_some hf₂) (by rw [hp₁.1, hp₂.1]) (by rw [hp₁.2, hp₂.2]))
  | some r₁, none =>
    exfalso
    have hp₁ := List.find?_some hf₁
    simp only [Bool.and_eq_true, beq_iff_eq] at hp₁
    have hkey₁ : ∃ r ∈ normalizedTimeline subs₁, r.sub_id = s ∧ r.dates = m :=
      ⟨r₁, List.mem_of_find?_eq_some hf₁, hp₁.1, hp₁.2⟩
    obtain ⟨lo, hi, hlo, hhi, h1, h2⟩ := timeline_key_iff.mp hkey₁
    have hkey₂ : ∃ r ∈ normalizedTimeline subs₂, r.sub_id = s ∧ r.dates = m :=
      timeline_key_iff.mpr ⟨lo, hi, by rw [← subRawDates_min?_perm hp]; exact hlo,
        by rw [← subRawDates_max?_perm hp]; exact hhi, h1, h2⟩
    obtain ⟨r, hr, hrs, hrd⟩ := hkey₂
    rw [List.find?_eq_none] at hf₂
    exact hf₂ r hr (by simp [hrs, hrd])
  | none, some r₂ =>
    exfalso
    have hp₂ := List.find?_some hf₂
    simp only [Bool.and_eq_true, beq_iff_eq] at hp₂
    have hkey₂ : ∃ r ∈ normalizedTimeline subs₂, r.sub_id = s ∧ r.dates = m :=
      ⟨r₂, List.mem_of_find?_eq_some hf₂, hp₂.1, hp₂.2⟩
    obtain ⟨lo, hi, hlo, hhi, h1, h2⟩ := timeline_key_iff.mp hkey₂
    have hkey₁ : ∃ r ∈ normalizedTimeline subs₁, r.sub_id = s ∧ r.dates = m :=
      timeline_key_iff.mpr ⟨lo, hi, by rw [subRawDates_min?_perm hp]; exact hlo,
        by rw [subRawDates_max?_perm hp]; exact hhi, h1, h2⟩
    obtain ⟨r, hr, hrs, hrd⟩ := hkey₁
    rw [List.find?_eq_none] at hf₁
    exact hf₁ r hr (by simp [hrs, hrd])
  | none, none =>
    rw [hf₁, hf₂, Option.map_none', Option.map_none']

/-- C3 witness: swapping the two rows of subscriber 8's duplicated month-60
key (statuses active vs canceled) leaves the resolved status of (8, 60)
unchanged, and garbling all flagged statuses does not affect resolution of
the synthetic month-61 row. -/
theorem c3_witness :
    statusAt (resolvedTimeline
        [⟨8, "active", 60⟩, ⟨8, "canceled", 60⟩, ⟨8, "active", 62⟩]) 8 60 =
      statusAt (resolvedTimeline
        [⟨8, "canceled", 60⟩, ⟨8, "active", 60⟩, ⟨8, "active", 62⟩]) 8 60 ∧
    get_last_valid_status
      ((normalizedTimeline
          [⟨8, "active", 60⟩, ⟨8, "canceled", 60⟩, ⟨8, "active", 62⟩]).map (fun q =>
        if q.invalid_status = true then
          { q with status := (fun _ => "garbled") q } else q))
      ⟨8, "True", 61, true⟩ =
    get_last_valid_status
      (normalizedTimeline
        [⟨8, "active", 60⟩, ⟨8, "canceled", 60⟩, ⟨8, "active", 62⟩])
      ⟨8, "True", 61, true⟩ := by
  obtain ⟨h1, h2⟩ := c3_resolution_order_independent
    [⟨8, "active", 60⟩, ⟨8, "canceled", 60⟩, ⟨8, "active", 62⟩]
    [⟨8, "canceled", 60⟩, ⟨8, "active", 60⟩, ⟨8, "active", 62⟩]
    (by decide) 8 60
  exact ⟨h1, h2 (fun _ => "garbled") ⟨8, "True", 61, true⟩⟩

/-!
## Claim C9: idempotence
-/

/-- Sorting is determined by the multiset when the keys are unique. -/
theorem sortOutput_eq_of_perm {l₁ l₂ : List OutputRow} (hp : l₁.Perm l₂)
    (hk : l₁.Pairwise (fun a b => okey a ≠ okey b)) :
    sortOutput l₁ = sortOutput l₂ := by
  have hperm : (sortOutput l₁).Perm (sortOutput l₂) :=
    ((sortOutput_perm l₁).trans hp).trans (sortOutput_perm l₂).symm
  have hk₁ : (sortOutput l₁).Pairwise (fun a b => okey a ≠ okey b) :=
    ((sortOutput_perm l₁).pairwise_iff (fun h => h ∘ Eq.symm)).mpr hk
  have hk₂ : (sortOutput l₂).Pairwise (fun a b => okey a ≠ okey b) :=
    (hperm.pairwise_iff (fun h => h ∘ Eq.symm)).mp hk₁
  have hs₁ : (sortOutput l₁).Pairwise keyLT :=
    (sortOutput_sorted l₁).and hk₁
  have hs₂ : (sortOutput l₂).Pairwise keyLT :=
    (sortOutput_sorted l₂).and hk₂
  exact List.eq_of_perm_of_sorted hperm hs₁ hs₂

/-- Pairwise-distinct raw keys bound each key's count by one. -/
theorem rawCount_le_one_of_pairwise {l : List SubRow} {s m : Nat}
    (h : l.Pairwise (fun a b => (a.sub_id, a.dates) ≠ (b.sub_id, b.dates))) :
    rawCount l s m ≤ 1 := by
  induction l with
  | nil => simp [rawCount]
  | cons a as ih =>
    rw [List.pairwise_cons] at h
    show (a :: as).countP (sameKey s m) ≤ 1
    rw [List.countP_cons]
    by_cases hp : sameKey s m a = true
    · have hz : as.countP (sameKey s m) = 0 := by
        rw [List.countP_eq_zero]
        intro q hq hqp
        simp only [sameKey, Bool.and_eq_true, beq_iff_eq] at hp hqp
        exact h.1 q hq (by rw [hp.1, hp.2, hqp.1, hqp.2])
      simp [hz, hp]
    · rw [Bool.not_eq_true] at hp
      have h2 : as.countP (sameKey s m) ≤ 1 := ih h.2
      simp [hp]
      omega

/-- On a duplicate-free input the Deduplicator only appends `false` flags. -/
theorem markDuplicates_eq_of_unique {l : List SubRow}
    (h : ∀ s m, rawCount l s m ≤ 1) :
    markDuplicates l = l.map (fun r => ⟨r.sub_id, r.status, r.dates, false⟩) := by
  rw [markDuplicates]
  refine List.map_congr_left ?_
  intro r hr
  have : decide (2 ≤ rawCount l r.sub_id r.dates) = false := by
    have := h r.sub_id r.dates
    simp
    omega
  rw [this]

/-- `drop_duplicates` is the identity on key-distinct rows. -/
theorem dropDupsAux_id {l : List DedupRow} {seen : List (Nat × Nat)}
    (h : keyNodup l) (hseen : ∀ r ∈ l, dkey r ∉ seen) :
    dropDupsAux l seen = l := by
  induction l generalizing seen with
  | nil => rfl
  | cons a as ih =>
    rw [keyNodup, List.pairwise_cons] at h
    rw [dropDupsAux, if_neg (hseen a (List.mem_cons_self a as))]
    congr 1
    refine ih h.2 ?_
    intro r hr hc
    rcases List.mem_cons.mp hc with h1 | h1
    · exact h.1 r hr h1.symm
    · exact hseen r (List.mem_cons_of_mem a hr) h1

/-- The resolver changes nothing on an all-valid timeline. -/
theorem updated_statuses_id {rows : List DedupRow}
    (h : ∀ r ∈ rows, r.invalid_status = false) :
    updated_statuses rows = rows := by
  rw [updated_statuses]
  have : ∀ r ∈ rows, { r with status := get_last_valid_status rows r } = r := by
    intro r hr
    rw [glvs_valid (h r hr)]
  exact (List.map_congr_left this).trans (List.map_id _)

/-- On a gap-free, key-distinct timeline, the reindex is a permutation. -/
theorem fill_perm_of_contiguous {D : List DedupRow} (hk : keyNodup D)
    (hc : ∀ s ∈ subsOf D, ∀ lo hi,
      (subDates D s).min? = some lo → (subDates D s).max? = some hi →
      ∀ m, lo ≤ m → m ≤ hi → ∃ r ∈ D, r.sub_id = s ∧ r.dates = m) :
    (fill_missing_months D).Perm D := by
  have hnd₁ : (fill_missing_months D).Nodup :=
    (fill_keyNodup D).imp (fun hab => fun he => hab (he ▸ rfl))
  have hnd₂ : D.Nodup := hk.imp (fun hab => fun he => hab (he ▸ rfl))
  rw [List.perm_ext_iff_of_nodup hnd₁ hnd₂]
  intro r
  constructor
  · intro hr
    obtain ⟨s, hs, lo, hi, hlo, hhi, m, h1, h2, heq⟩ := mem_fill_elim hr
    rw [gridRow] at heq
    split at heq
    case h_1 q hq => exact heq ▸ List.mem_of_find?_eq_some hq
    case h_2 hq =>
      exfalso
      obtain ⟨q, hqm, hqs, hqd⟩ := hc s hs lo hi hlo hhi m h1 h2
      rw [List.find?_eq_none] at hq
      exact hq q hqm (by simp [hqs, hqd])
  · exact mem_fill_of_mem hk

/-- A date-window scan depends only on the `(sub_id, status, dates)` multiset. -/
theorem filtermap_dates_perm {T₁ T₂ : List DedupRow}
    (h : (T₂.map trip).Perm (T₁.map trip)) (P : Nat × String × Nat → Bool) :
    ((T₂.filter (fun x => P (trip x))).map (fun x => x.dates)).Perm
      ((T₁.filter (fun x => P (trip x))).map (fun x => x.dates)) := by
  have key : ∀ (T : List DedupRow),
      (T.filter (fun x => P (trip x))).map (fun x => x.dates) =
      ((T.map trip).filter P).map (fun t => t.2.2) := by
    intro T
    rw [List.filter_map, List.map_map]
    rfl
  rw [key T₂, key T₁]
  exact (h.filter P).map _

theorem countP_trip_perm {T₁ T₂ : List DedupRow}
    (h : (T₂.map trip).Perm (T₁.map trip)) (P : Nat × String × Nat → Bool) :
    T₂.countP (fun x => P (trip x)) = T₁.countP (fun x => P (trip x)) := by
  have key : ∀ (T : List DedupRow),
      T.countP (fun x => P (trip x)) = (T.map trip).countP P := by
    intro T
    rw [List.countP_map]
    rfl
  rw [key T₂, key T₁]
  exact h.countP_eq P

theorem msfs_trip_congr {T₁ T₂ : List DedupRow}
    (h : (T₂.map trip).Perm (T₁.map trip)) {q₁ q₂ : DedupRow}
    (ht : trip q₂ = trip q₁) :
    get_months_since_first_subscription T₂ q₂ =
      get_months_since_first_subscription T₁ q₁ := by
  have hs : q₂.sub_id = q₁.sub_id := congrArg (fun t => t.1) ht
  have hd : q₂.dates = q₁.dates := congrArg (fun t => t.2.2) ht
  rw [msfs_eq, msfs_eq, hs, hd]
  have e : ∀ (T : List DedupRow),
      T.filter (fun x => x.sub_id == q₁.sub_id && x.status == "active" &&
        decide (x.dates ≤ q₁.dates)) =
      T.filter (fun x => (fun t : Nat × String × Nat =>
        t.1 == q₁.sub_id && t.2.1 == "active" && decide (t.2.2 ≤ q₁.dates))
          (trip x)) :=
    fun T => List.filter_congr (fun a _ => rfl)
  rw [e T₂, e T₁]
  rw [min?_congr_mem (fun x => (filtermap_dates_perm h
    (fun t : Nat × String × Nat =>
      t.1 == q₁.sub_id && t.2.1 == "active" && decide (t.2.2 ≤ q₁.dates))).mem_iff)]

theorem mssc_trip_congr {T₁ T₂ : List DedupRow}
    (h : (T₂.map trip).Perm (T₁.map trip)) {q₁ q₂ : DedupRow}
    (ht : trip q₂ = trip q₁) :
    get_months_since_status_change T₂ q₂ =
      get_months_since_status_change T₁ q₁ := by
  have hs : q₂.sub_id = q₁.sub_id := congrArg (fun t => t.1) ht
  have hst : q₂.status = q₁.status := congrArg (fun t => t.2.1) ht
  have hd : q₂.dates = q₁.dates := congrArg (fun t => t.2.2) ht
  rw [mssc_eq, mssc_eq, hs, hst, hd]
  have e : ∀ (T : List DedupRow),
      T.filter (fun x => x.sub_id == q₁.sub_id && decide (x.dates < q₁.dates) &&
        x.status != q₁.status) =
      T.filter (fun x => (fun t : Nat × String × Nat =>
        t.1 == q₁.sub_id && decide (t.2.2 < q₁.dates) && t.2.1 != q₁.status)
          (trip x)) :=
    fun T => List.filter_congr (fun a _ => rfl)
  rw [e T₂, e T₁]
  rw [max?_congr_mem (fun x => (filtermap_dates_perm h
    (fun t : Nat × String × Nat =>
      t.1 == q₁.sub_id && decide (t.2.2 < q₁.dates) && t.2.1 != q₁.status)).mem_iff)]

theorem counts_trip_congr {T₁ T₂ : List DedupRow}
    (h : (T₂.map trip).Perm (T₁.map trip)) {q₁ q₂ : DedupRow}
    (ht : trip q₂ = trip q₁) :
    get_status_counts T₂ q₂ = get_status_counts T₁ q₁ := by
  have hs : q₂.sub_id = q₁.sub_id := congrArg (fun t => t.1) ht
  have hd : q₂.dates = q₁.dates := congrArg (fun t => t.2.2) ht
  simp only [get_status_counts, hs, hd]
  have key : ∀ (T : List DedupRow) (st : String),
      ((T.filter (fun q => q.sub_id == q₁.sub_id && decide (q.dates ≤ q₁.dates))).filter
        (fun q => q.status == st)).length =
      T.countP (fun x => (fun t : Nat × String × Nat =>
        t.2.1 == st && (t.1 == q₁.sub_id && decide (t.2.2 ≤ q₁.dates))) (trip x)) := by
    intro T st
    rw [← List.countP_eq_length_filter, List.countP_filter]
    exact List.countP_congr (fun a _ => Iff.rfl)
  rw [key T₂ "active", key T₁ "active", key T₂ "canceled", key T₁ "canceled",
    countP_trip_perm h (fun t : Nat × String × Nat =>
      t.2.1 == "active" && (t.1 == q₁.sub_id && decide (t.2.2 ≤ q₁.dates))),
    countP_trip_perm h (fun t : Nat × String × Nat =>
      t.2.1 == "canceled" && (t.1 == q₁.sub_id && decide (t.2.2 ≤ q₁.dates)))]

theorem enrichRow_trip_congr {T₁ T₂ : List DedupRow}
    (h : (T₂.map trip).Perm (T₁.map trip)) (bpm : List BookingCount)
    {q₁ q₂ : DedupRow} (ht : trip q₂ = trip q₁) :
    enrichRow T₂ bpm q₂ = enrichRow T₁ bpm q₁ := by
  have hs : q₂.sub_id = q₁.sub_id := congrArg (fun t => t.1) ht
  have hst : q₂.status = q₁.status := congrArg (fun t => t.2.1) ht
  have hd : q₂.dates = q₁.dates := congrArg (fun t => t.2.2) ht
  simp only [enrichRow]
  rw [hs, hst, hd, msfs_trip_congr h ht, counts_trip_congr h ht,
    mssc_trip_congr h ht]

/-- C9: feeding the engine its own fully resolved output (a duplicate-free,
gap-free input) back as raw subscription input, with the same booking events,
reproduces the first run's output exactly. -/
theorem c9_idempotent (subs : List SubRow) (books : List BookingRow) :
    mainPipe ((mainPipe subs books).map toRaw) books = mainPipe subs books := by
  have hkN₁ : keyNodup (normalizedTimeline subs) := fill_keyNodup _
  have hkR₁ : keyNodup (resolvedTimeline subs) := by
    rw [resolvedTimeline, updated_statuses, keyNodup, List.pairwise_map]
    exact hkN₁.imp (fun h => h)
  have hkL₁ : ((resolvedTimeline subs).map
      (enrichRow (resolvedTimeline subs) (get_monthly_bookings books))).Pairwise
        (fun a b => okey a ≠ okey b) := by
    rw [List.pairwise_map]
    exact hkR₁.imp (fun h => h)
  have hkO₁ : (mainPipe subs books).Pairwise (fun a b => okey a ≠ okey b) :=
    ((sortOutput_perm _).pairwise_iff (fun h => h ∘ Eq.symm)).mpr hkL₁
  have hkI : ((mainPipe subs books).map toRaw).Pairwise
      (fun a b => (a.sub_id, a.dates) ≠ (b.sub_id, b.dates)) := by
    rw [List.pairwise_map]
    exact hkO₁.imp (fun h => h)
  have hcount : ∀ s m, rawCount ((mainPipe subs books).map toRaw) s m ≤ 1 :=
    fun s m => rawCount_le_one_of_pairwise hkI
  have hkM : keyNodup (((mainPipe subs books).map toRaw).map
      (fun r => ⟨r.sub_id, r.status, r.dates, false⟩)) := by
    rw [keyNodup, List.pairwise_map]
    exact hkI.imp (fun h => h)
  have hD₂ : deduplicate_subscriptions ((mainPipe subs books).map toRaw) =
      ((mainPipe subs books).map toRaw).map
        (fun r => ⟨r.sub_id, r.status, r.dates, false⟩) := by
    rw [deduplicate_subscriptions, markDuplicates_eq_of_unique hcount]
    exact dropDupsAux_id hkM (fun r _ => List.not_mem_nil _)
  have hkD₂ : keyNodup (deduplicate_subscriptions ((mainPipe subs books).map toRaw)) := by
    rw [hD₂]; exact hkM
  have hD₂p : (deduplicate_subscriptions ((mainPipe subs books).map toRaw)).Perm
      ((resolvedTimeline subs).map reflag) := by
    rw [hD₂, List.map_map]
    have h1 : ((mainPipe subs books).map
        ((fun r : SubRow => (⟨r.sub_id, r.status, r.dates, false⟩ : DedupRow)) ∘ toRaw)).Perm
        (((resolvedTimeline subs).map
          (enrichRow (resolvedTimeline subs) (get_monthly_bookings books))).map
            ((fun r : SubRow => (⟨r.sub_id, r.status, r.dates, false⟩ : DedupRow)) ∘ toRaw)) :=
      (sortOutput_perm _).map _
    refine h1.trans ?_
    rw [List.map_map]
    rw [List.map_congr_left (fun (a : DedupRow) _ =>
      (rfl : ((((fun r : SubRow => (⟨r.sub_id, r.status, r.dates, false⟩ : DedupRow)) ∘ toRaw) ∘
        enrichRow (resolvedTimeline subs) (get_monthly_bookings books)) a) = reflag a))]
    exact List.Perm.refl _
  have hflagD₂ : ∀ r ∈ deduplicate_subscriptions ((mainPipe subs books).map toRaw),
      r.invalid_status = false := by
    intro r hr
    rw [hD₂, List.mem_map] at hr
    obtain ⟨q, -, heq⟩ := hr
    rw [← heq]
  have hkey : ∀ s m,
      (∃ r ∈ deduplicate_subscriptions ((mainPipe subs books).map toRaw),
        r.sub_id = s ∧ r.dates = m) ↔
      (∃ r ∈ normalizedTimeline subs, r.sub_id = s ∧ r.dates = m) := by
    intro s m
    constructor
    · rintro ⟨r, hr, h1, h2⟩
      have hr' := hD₂p.mem_iff.mp hr
      rw [List.mem_map] at hr'
      obtain ⟨r₁, hr₁, heq⟩ := hr'
      rw [resolvedTimeline, updated_statuses, List.mem_map] at hr₁
      obtain ⟨n, hn, heq₂⟩ := hr₁
      refine ⟨n, hn, ?_, ?_⟩
      · rw [← h1, ← heq, ← heq₂]; rfl
      · rw [← h2, ← heq, ← heq₂]; rfl
    · rintro ⟨n, hn, h1, h2⟩
      have hr₁ : ({ n with status :=
          get_last_valid_status (normalizedTimeline subs) n } : DedupRow) ∈
            resolvedTimeline subs := by
        rw [resolvedTimeline, updated_statuses, List.mem_map]
        exact ⟨n, hn, rfl⟩
      refine ⟨reflag { n with status :=
          get_last_valid_status (normalizedTimeline subs) n }, ?_, h1, h2⟩
      refine hD₂p.mem_iff.mpr ?_
      rw [List.mem_map]
      exact ⟨_, hr₁, rfl⟩
  have hcont : ∀ s ∈ subsOf (deduplicate_subscriptions ((mainPipe subs books).map toRaw)),
      ∀ lo hi,
      (subDates (deduplicate_subscriptions ((mainPipe subs books).map toRaw)) s).min? = some lo →
      (subDates (deduplicate_subscriptions ((mainPipe subs books).map toRaw)) s).max? = some hi →
      ∀ m, lo ≤ m → m ≤ hi →
        ∃ r ∈ deduplicate_subscriptions ((mainPipe subs books).map toRaw),
          r.sub_id = s ∧ r.dates = m := by
    intro s hs lo hi hlo hhi m h1 h2
    have hlomem := (List.min?_eq_some_iff'.mp hlo).1
    obtain ⟨rlo, hrlo, hklo⟩ := mem_subDates_iff.mp hlomem
    obtain ⟨lo₁, hi₁, ha, hb, hc, hd⟩ :=
      timeline_key_iff.mp ((hkey s lo).mp ⟨rlo, hrlo, hklo.1, hklo.2⟩)
    have hhimem := (List.max?_eq_some_iff'.mp hhi).1
    obtain ⟨rhi, hrhi, hkhi⟩ := mem_subDates_iff.mp hhimem
    obtain ⟨lo₁', hi₁', ha', hb', hc', hd'⟩ :=
      timeline_key_iff.mp ((hkey s hi).mp ⟨rhi, hrhi, hkhi.1, hkhi.2⟩)
    have he₁ : lo₁' = lo₁ := by
      rw [ha] at ha'
      injection ha' with h
      exact h.symm
    have he₂ : hi₁' = hi₁ := by
      rw [hb] at hb'
      injection hb' with h
      exact h.symm
    refine (hkey s m).mpr (timeline_key_iff.mpr ⟨lo₁, hi₁, ha, hb, ?_, ?_⟩)
    · omega
    · omega
  have hN₂p : (fill_missing_months
      (deduplicate_subscriptions ((mainPipe subs books).map toRaw))).Perm
      (deduplicate_subscriptions ((mainPipe subs books).map toRaw)) :=
    fill_perm_of_contiguous hkD₂ hcont
  have hflagN₂ : ∀ r ∈ fill_missing_months
      (deduplicate_subscriptions ((mainPipe subs books).map toRaw)),
      r.invalid_status = false :=
    fun r hr => hflagD₂ r (hN₂p.mem_iff.mp hr)
  have hupd : resolvedTimeline ((mainPipe subs books).map toRaw) =
      fill_missing_months (deduplicate_subscriptions ((mainPipe subs books).map toRaw)) :=
    updated_statuses_id hflagN₂
  have hR₂p : (resolvedTimeline ((mainPipe subs books).map toRaw)).Perm
      ((resolvedTimeline subs).map reflag) := by
    rw [hupd]
    exact hN₂p.trans hD₂p
  have htrip : ((resolvedTimeline ((mainPipe subs books).map toRaw)).map trip).Perm
      ((resolvedTimeline subs).map trip) := by
    refine (hR₂p.map trip).trans ?_
    rw [List.map_map]
    rw [List.map_congr_left (fun (a : DedupRow) _ =>
      (rfl : (trip ∘ reflag) a = trip a))]
    exact List.Perm.refl _
  have hL : ((resolvedTimeline ((mainPipe subs books).map toRaw)).map
      (enrichRow (resolvedTimeline ((mainPipe subs books).map toRaw))
        (get_monthly_bookings books))).Perm
      ((resolvedTimeline subs).map
        (enrichRow (resolvedTimeline subs) (get_monthly_bookings books))) := by
    refine (hR₂p.map _).trans ?_
    rw [List.map_map]
    have hmapeq : List.map ((enrichRow (resolvedTimeline ((mainPipe subs books).map toRaw))
        (get_monthly_bookings books)) ∘ reflag) (resolvedTimeline subs) =
        List.map (enrichRow (resolvedTimeline subs) (get_monthly_bookings books))
          (resolvedTimeline subs) :=
      List.map_congr_left (fun a _ =>
        enrichRow_trip_congr htrip (get_monthly_bookings books)
          (rfl : trip (reflag a) = trip a))
    rw [hmapeq]
  have hkR₂ : keyNodup (resolvedTimeline ((mainPipe subs books).map toRaw)) := by
    rw [hupd]
    exact fill_keyNodup _
  have hkL₂ : ((resolvedTimeline ((mainPipe subs books).map toRaw)).map
      (enrichRow (resolvedTimeline ((mainPipe subs books).map toRaw))
        (get_monthly_bookings books))).Pairwise (fun a b => okey a ≠ okey b) := by
    rw [List.pairwise_map]
    exact hkR₂.imp (fun h => h)
  exact sortOutput_eq_of_perm hL hkL₂
